import Mathlib

/-!
Shallow embedding of the fkftp multi-directory FTP server core
(`filesystem.py`, `server.py`, `hash_password.py`) together with proofs of
its path-translation, authorization and authentication properties.

Platform model: the path separator `os.sep` is the forward slash and the
filesystem is case-insensitive, i.e. `os.path.normcase` lowercases a path
(as on Windows) while `os.path.normpath` follows the POSIX rules with `/`
as separator.  Python strings are Lean `String`s; the Python string
primitives used by the source are modelled over their character lists.
-/

namespace Fkftp

/-- Python `str.lower`, as the by-character case fold. -/
def pyLower (s : String) : String := String.mk (s.data.map Char.toLower)

/-- Python `str.startswith`. -/
def pyStartswith (s t : String) : Bool := t.data.isPrefixOf s.data

/-- Python `str.endswith`. -/
def pyEndswith (s t : String) : Bool := t.data.reverse.isPrefixOf s.data.reverse

/-- Python `str.split(sep)` for a one-character separator. -/
def pySplitChar (s : String) (sep : Char) : List String :=
  (s.data.splitOn sep).map String.mk

/-- Python `str.lstrip(c)` for a one-character strip set. -/
def pyLstrip (s : String) (c : Char) : String :=
  String.mk (s.data.dropWhile (fun x => x = c))

/-- Python slice `s[n:]`. -/
def pyDrop (s : String) (n : Nat) : String := String.mk (s.data.drop n)

/-- Python `len(s)`. -/
def pyLen (s : String) : Nat := s.data.length

/-- Python `c in s` for a single character `c`. -/
def pyContains (s : String) (c : Char) : Bool := s.data.contains c

/-- Python `s.split(sep, 1)` in the case where `sep` occurs in `s`: the part
before the first separator and everything after it. -/
def pySplitOnce (s : String) (sep : Char) : String × String :=
  (String.mk (s.data.takeWhile (fun x => x ≠ sep)),
   String.mk ((s.data.dropWhile (fun x => x ≠ sep)).drop 1))

/-- One step of the component loop inside `posixpath.normpath`; `slashes` is
the number of initial slashes of the whole input path. -/
def npStep (slashes : Nat) (acc : List (List Char)) (comp : List Char) : List (List Char) :=
  if comp = [] ∨ comp = ['.'] then acc
  else if comp ≠ ['.', '.'] ∨ (slashes = 0 ∧ acc = []) ∨
      (acc ≠ [] ∧ acc.getLast? = some ['.', '.']) then
    acc ++ [comp]
  else if acc ≠ [] then acc.dropLast
  else acc

/-- Number of initial slashes recorded by `posixpath.normpath` (1, or 2 for
the special POSIX double-slash root, or 0 for relative paths). -/
def npSlashes (path : String) : Nat :=
  if pyStartswith path "/" then
    if pyStartswith path "//" && !(pyStartswith path "///") then 2 else 1
  else 0

/-- Python `os.path.normpath` (POSIX rules, separator `/`). -/
def normpath (path : String) : String :=
  if path = "" then "."
  else
    let out := List.replicate (npSlashes path) '/' ++
      List.intercalate ['/'] ((path.data.splitOn '/').foldl (npStep (npSlashes path)) [])
    if out = [] then "." else String.mk out

/-- Python `os.path.join` for two arguments (POSIX rules). -/
def pyJoin2 (a b : String) : String :=
  if pyStartswith b "/" then b
  else if a = "" ∨ pyEndswith a "/" = true then a ++ b
  else a ++ "/" ++ b

/-- Python `os.path.join(a, *parts)`. -/
def pyJoinList (a : String) (parts : List String) : String := parts.foldl pyJoin2 a

/-- Python `os.path.normcase` on the modelled case-insensitive platform:
lowercase the path (separators are already forward slashes). -/
def normcase (s : String) : String := pyLower s

/-- State of one `MultiDirFilesystem` instance: the per-user mount map, an
insertion-ordered association list exactly like a Python dict, and the
current virtual working directory `cwd`. -/
structure FS where
  dirMap : List (String × String)
  cwd : String

/-- Loop `while p[:2] == "//": p = p[1:]` from `AbstractedFS.ftpnorm`. -/
def stripDouble : List Char → List Char
  | c1 :: c2 :: rest => if c1 = '/' ∧ c2 = '/' then stripDouble (c2 :: rest) else c1 :: c2 :: rest
  | l => l

/-- pyftpdlib `AbstractedFS.ftpnorm`: normalize a virtual path against the
current working directory and anchor it at the virtual root. -/
def ftpnorm (fs : FS) (ftppath : String) : String :=
  let p := if pyStartswith ftppath "/" then normpath ftppath
           else normpath (pyJoin2 fs.cwd ftppath)
  let q := String.mk (stripDouble p.data)
  if pyStartswith q "/" then q else "/" ++ q

/-- `MultiDirFilesystem.__init__`: look up the user's mount map in
`USER_DIR_MAP` (empty when absent) and normalize every real path; the
working directory starts at the virtual root. -/
def initFS (userDirMap : List (String × List (String × String))) (username : String) : FS :=
  { dirMap := (((userDirMap.find? (fun e => e.1 == username)).map (fun e => e.2)).getD []).map
      (fun mb => (mb.1, normpath mb.2)),
    cwd := "/" }

/-- `MultiDirFilesystem._find_mount`: case-insensitive mount name lookup,
first match in dict iteration order. -/
def findMount (fs : FS) (name : String) : Option String :=
  (fs.dirMap.find? (fun mb => pyLower mb.1 == pyLower name)).map (fun mb => mb.1)

/-- Python `mount_name in self._dir_map` followed by indexing: exact-key
dictionary lookup. -/
def lookupDir (fs : FS) (name : String) : Option String :=
  (fs.dirMap.find? (fun mb => mb.1 == name)).map (fun mb => mb.2)

/-- `MultiDirFilesystem._resolve`: split a normalized virtual path into the
first segment (matched case-insensitively against mounts, returned verbatim
when it matches no mount) and the remaining segments. -/
def resolve (fs : FS) (ftppath : String) : Option String × List String :=
  let normed := ftpnorm fs ftppath
  let parts := (pySplitChar normed '/').filter (fun p => p ≠ "")
  match parts with
  | [] => (none, [])
  | p0 :: rest =>
    match findMount fs p0 with
    | some m => (some m, rest)
    | none => (some p0, rest)

/-- `MultiDirFilesystem._to_absolute_ftppath`.  The second branch is dead
code in the source (`ftpnorm` always yields an absolute path) but is kept
for faithfulness. -/
def toAbsoluteFtppath (fs : FS) (ftppath : String) : String :=
  let normed := ftpnorm fs ftppath
  if !(pyStartswith normed "/") then normpath (fs.cwd ++ "/" ++ normed)
  else normed

/-- `MultiDirFilesystem.ftp2fs`: translate a virtual FTP path to a real
filesystem path.  When `_resolve` returns a first component that is not a
key of the mount map, the source falls into the `__invalid__` branch; the
`none` first component can only occur for the virtual root, which was
already returned. -/
def ftp2fs (fs : FS) (ftppath : String) : String :=
  let fp := toAbsoluteFtppath fs ftppath
  let normed := ftpnorm fs fp
  if normed = "/" then normed
  else
    let r := resolve fs fp
    match r.1 with
    | some m =>
      match lookupDir fs m with
      | some realBase =>
        if r.2 ≠ [] then normpath (pyJoinList realBase r.2)
        else realBase
      | none => normpath (pyJoin2 "__invalid__" m)
    | none => normpath (pyJoin2 "__invalid__" "")

/-- Condition of the translation loop in `MultiDirFilesystem.fs2ftp`: the
real path equals the mount real base or lies strictly under it, compared
after `normcase`. -/
def fs2ftpMatch (fp : String) (mb : String × String) : Bool :=
  let rbn := normpath mb.2
  normcase fp == normcase rbn || pyStartswith (normcase fp) (normcase rbn ++ "/")

/-- `MultiDirFilesystem.fs2ftp`: translate a real filesystem path to a
virtual FTP path; falls back to the virtual root when no mount matches.
With `os.sep = "/"` the final `rel.replace(os.sep, "/")` is the identity. -/
def fs2ftp (fs : FS) (fspath : String) : String :=
  let fp := normpath fspath
  match fs.dirMap.find? (fs2ftpMatch fp) with
  | some mb =>
    let rbn := normpath mb.2
    if normcase fp == normcase rbn then "/" ++ mb.1
    else
      let rel := pyLstrip (pyDrop fp (pyLen rbn)) '/'
      "/" ++ mb.1 ++ "/" ++ rel
  | none => "/"

/-- Condition of the loop in `MultiDirFilesystem.validpath` for one mount. -/
def validpathMatch (p : String) (mb : String × String) : Bool :=
  let rb := normpath mb.2
  normcase p == normcase rb || pyStartswith (normcase p) (normcase rb ++ "/")

/-- `MultiDirFilesystem.validpath`: a path is valid when it is the virtual
root or equals / lies strictly under one of the user's mount real paths. -/
def validpath (fs : FS) (path : String) : Bool :=
  if path = "/" then true
  else fs.dirMap.any (validpathMatch (normpath path))

/-- `MultiDirFilesystem.isdir`: true for the virtual root and for every
mount real root without consulting the disk; all other paths defer to
`os.path.isdir`, modelled by the oracle `osIsdir`. -/
def isdir (fs : FS) (osIsdir : String → Bool) (path : String) : Bool :=
  if path = "/" then true
  else
    let pn := normpath path
    if fs.dirMap.any (fun mb => normcase pn == normcase (normpath mb.2)) then true
    else osIsdir path

/-- Outcome of `MultiDirFilesystem.rmdir`: the distinct pyftpdlib
`FilesystemError`, or what the underlying `os.rmdir` call did. -/
inductive RmdirOutcome where
  | fsError (msg : String)
  | osOk
  | osError (msg : String)
deriving DecidableEq, Repr

/-- `MultiDirFilesystem.rmdir`: refuse to delete a mount real root with a
distinct `FilesystemError`, otherwise perform the plain `os.rmdir`, whose
disk behaviour is the oracle `osRmdir` (`none` = success, `some e` = the
OS error `e`). -/
def rmdir (fs : FS) (osRmdir : String → Option String) (path : String) : RmdirOutcome :=
  if fs.dirMap.any (fun mb => normcase (normpath path) == normcase (normpath mb.2)) then
    .fsError "Cannot remove a mount point."
  else
    match osRmdir path with
    | none => .osOk
    | some e => .osError e

/-- One per-user record of `DummyAuthorizer.user_table`, as written by
`HashedAuthorizer.add_user`: the stored password verifier, the (vestigial)
home directory, the base permission string, the per-directory permission
override table `operms` mapping a directory to its permission string and
recursive flag, and the two greeting messages. -/
structure UserRecord where
  pwd : String
  home : String
  perm : String
  operms : List (String × String × Bool)
  msg_login : String
  msg_quit : String
deriving DecidableEq, Repr

/-- Authorizer user table: an insertion-ordered association list, exactly
like the Python dict `user_table`. -/
abbrev UserTable := List (String × UserRecord)

/-- Authorizer errors (`pyftpdlib.authorizers.AuthorizerError`). -/
inductive AuthErr where
  | authorizerError (msg : String)
deriving DecidableEq, Repr

/-- `DummyAuthorizer.has_user`. -/
def hasUser (t : UserTable) (username : String) : Bool :=
  (List.find? (fun e => e.1 == username) t).isSome

/-- Python `self.user_table[username]`. -/
def lookupUser (t : UserTable) (username : String) : Option UserRecord :=
  (List.find? (fun e => e.1 == username) t).map (fun e => e.2)

/-- `DummyAuthorizer.read_perms`. -/
def readPerms : String := "elr"

/-- `DummyAuthorizer.write_perms`. -/
def writePerms : String := "adfmwMT"

/-- `DummyAuthorizer._check_permissions`: raise on the first permission
character outside `read_perms + write_perms` (the anonymous-write warning
has no observable effect and is omitted). -/
def checkPermissions (perm : String) : Except AuthErr Unit :=
  match perm.data.find? (fun p => !((readPerms ++ writePerms).data.contains p)) with
  | some p => .error (.authorizerError ("no such permission " ++ String.mk [p]))
  | none => .ok ()

/-- `HashedAuthorizer.add_user`: fail on a duplicate username, validate the
permission characters, and append the new record.  The homedir existence
check of the base class is deliberately absent (virtual filesystem). -/
def add_user (t : UserTable) (username password_hash homedir : String)
    (perm : String := "elr") (msg_login : String := "Login successful.")
    (msg_quit : String := "Goodbye.") : Except AuthErr UserTable :=
  if hasUser t username then
    .error (.authorizerError ("user " ++ username ++ " already exists"))
  else
    match checkPermissions perm with
    | .error e => .error e
    | .ok _ =>
      .ok (t ++ [(username,
        { pwd := password_hash, home := homedir, perm := perm, operms := [],
          msg_login := msg_login, msg_quit := msg_quit })])

/-- Global `USER_DIR_MAP`: username to mount map, a Python dict of dicts. -/
abbrev UserDirMap := List (String × List (String × String))

/-- Python `USER_DIR_MAP.get(username, {}).values()`. -/
def userDirs (udm : UserDirMap) (username : String) : List String :=
  (((List.find? (fun e => e.1 == username) udm).map (fun e => e.2)).getD []).map
    (fun mb => mb.2)

/-- Match condition of the override loop in `HashedAuthorizer.has_perm`
(`path` is already normcased there). -/
def opermMatch (path : String) (d : String × String × Bool) : Bool :=
  path == d.1 || (d.2.2 && pyStartswith path (d.1 ++ "/"))

/-- Match condition of the mount loop in `HashedAuthorizer.has_perm`. -/
def mountPermMatch (path : String) (realBase : String) : Bool :=
  let base := normcase (normpath realBase)
  path == base || pyStartswith path (base ++ "/")

/-- `HashedAuthorizer.has_perm`: permission decision over the virtual root,
the per-directory overrides and all of the user's mounted directories.
Returns `none` exactly where Python would raise `KeyError` (unregistered
user). -/
def has_perm (t : UserTable) (udm : UserDirMap) (username : String) (perm : Char)
    (path : Option String) : Option Bool :=
  match lookupUser t username with
  | none => none
  | some r =>
    match path with
    | none => some (r.perm.data.contains perm)
    | some p =>
      if p = "/" then some (r.perm.data.contains perm)
      else
        let pc := normcase p
        match r.operms.find? (opermMatch pc) with
        | some d => some (d.2.1.data.contains perm)
        | none =>
          if (userDirs udm username).any (mountPermMatch pc) then
            some (r.perm.data.contains perm)
          else
            some false

/-- `HashedAuthorizer.validate_authentication`.  The SHA-256 hex digest
`hashlib.sha256((salt + password).encode()).hexdigest()` is abstracted as
the parameter `H`; `hmac.compare_digest` is string equality (its
constant-time execution has no functional content).  The function is pure:
it reads the table and never updates it.  Errors are
`AuthenticationFailed` with the given reason. -/
def validate_authentication (H : String → String) (t : UserTable)
    (username password : String) : Except String Unit :=
  match lookupUser t username with
  | none => .error "Authentication failed."
  | some r =>
    let stored := r.pwd
    if stored = "" then
      .error "Password not configured. Run hash_password.py first."
    else if !(pyContains stored '$') then
      .error "Invalid password hash format."
    else
      let sh := pySplitOnce stored '$'
      let actual := H (sh.1 ++ password)
      if actual == sh.2 then .ok () else .error "Authentication failed."

/-- Hex digit characters used by `bytes.hex()`. -/
def hexDigit (n : Nat) : Char :=
  if n < 10 then Char.ofNat (48 + n) else Char.ofNat (87 + n)

/-- Hex encoding of one byte, two lowercase hex characters. -/
def byteHex (b : Nat) : List Char := [hexDigit (b / 16), hexDigit (b % 16)]

/-- Python `bytes.hex()` over a byte list. -/
def bytesHex (bs : List Nat) : String := String.mk (bs.flatMap byteHex)

/-- `hash_password.hash_password`: the 16 random bytes of `os.urandom(16)`
are the parameter `saltBytes` and the SHA-256 hex digest is the parameter
`H`; the verifier is `salt$hash` with `hash = H(salt ++ password)`. -/
def hash_password (H : String → String) (saltBytes : List Nat) (password : String) : String :=
  let salt := bytesHex saltBytes
  salt ++ "$" ++ H (salt ++ password)

/-- One user record of the JSON configuration consumed by `setup_server`,
with the defaults of the `.get` calls already applied. -/
structure UserCfg where
  username : String
  password_hash : String
  permissions : String
  directories : List (String × String)
deriving DecidableEq, Repr

/-- Python dict assignment `USER_DIR_MAP[username] = directories`. -/
def dmInsert (dm : UserDirMap) (k : String) (v : List (String × String)) : UserDirMap :=
  if dm.any (fun e => e.1 == k) then
    dm.map (fun e => if e.1 == k then (k, v) else e)
  else dm ++ [(k, v)]

/-- User registration loop of `setup_server`: for each configured user,
first write the directory map into the global `USER_DIR_MAP`, then register
the user with the authorizer; an `AuthorizerError` aborts the loop, leaving
`USER_DIR_MAP` as mutated so far. -/
def setupUsers : List UserCfg → UserDirMap → UserTable → UserDirMap × Except AuthErr UserTable
  | [], dm, t => (dm, .ok t)
  | u :: rest, dm, t =>
    let dm2 := dmInsert dm u.username u.directories
    let home :=
      match u.directories.head? with
      | some d => normpath d.2
      | none => normpath "."
    match add_user t u.username u.password_hash home u.permissions with
    | .error e => (dm2, .error e)
    | .ok t2 => setupUsers rest dm2 t2

/-- Result of a completed `setup_server` run: the populated registry and
authorizer together with the bound listening endpoint.  An `FTPServer`
(the listening socket) is only ever constructed after the whole user loop
has succeeded, so no value of this type exists when the loop fails. -/
structure ServerState where
  dirMap : UserDirMap
  table : UserTable
  host : String
  port : Nat
deriving Repr

/-- `setup_server`: run the user registration loop and only then build the
server on `(host, port)`.  The first component is the global `USER_DIR_MAP`
after the call, mutated even when the loop aborts. -/
def setup_server (users : List UserCfg) (host : String) (port : Nat) :
    UserDirMap × Except AuthErr ServerState :=
  let r := setupUsers users [] []
  (r.1, r.2.map (fun t => { dirMap := r.1, table := t, host := host, port := port }))

/-! Basic facts about the modelled string primitives. -/

theorem string_eq_of_data {s t : String} (h : s.data = t.data) : s = t := by
  cases s; cases t; exact congrArg String.mk h

theorem mk_data (l : List Char) : (String.mk l).data = l := rfl

theorem mk_eq_iff (l m : List Char) : String.mk l = String.mk m ↔ l = m := by
  constructor
  · intro h; simpa using congrArg String.data h
  · intro h; rw [h]

theorem mk_ne_empty {l : List Char} (h : l ≠ []) : String.mk l ≠ "" := by
  intro hq
  exact h (by simpa using congrArg String.data hq)

theorem pyLower_data (s : String) : (pyLower s).data = s.data.map Char.toLower := rfl

theorem pyLower_append (s t : String) : pyLower (s ++ t) = pyLower s ++ pyLower t := by
  apply string_eq_of_data
  simp [pyLower_data]

theorem pyStartswith_iff (s t : String) : pyStartswith s t = true ↔ t.data <+: s.data := by
  simp [pyStartswith]

theorem toLower_slash : Char.toLower '/' = '/' := by decide

/-- Good path segment: nonempty, separator-free, neither `.` nor `..`. -/
def Seg (c : List Char) : Prop :=
  c ≠ [] ∧ '/' ∉ c ∧ c ≠ ['.'] ∧ c ≠ ['.', '.']

instance : DecidablePred Seg := fun c => by
  unfold Seg; infer_instance

theorem seg_head {c : List Char} (h : Seg c) : ∃ c0 t, c = c0 :: t ∧ c0 ≠ '/' := by
  rcases c with _ | ⟨c0, t⟩
  · exact absurd rfl h.1
  · exact ⟨c0, t, rfl, fun he => h.2.1 (he ▸ List.mem_cons_self _ _)⟩

theorem mem_splitOn_slash_free (l : List Char) : ∀ c ∈ l.splitOn '/', '/' ∉ c := by
  induction l with
  | nil =>
    intro c hc
    simp only [List.splitOn_nil, List.mem_singleton] at hc
    simp [hc]
  | cons x xs ih =>
    intro c hc
    rw [List.splitOn, List.splitOnP_cons] at hc
    by_cases hx : x = '/'
    · simp only [hx, beq_self_eq_true, if_pos] at hc
      rcases List.mem_cons.mp hc with h | h
      · simp [h]
      · exact ih c h
    · rw [if_neg (by simpa using hx)] at hc
      rcases hs : xs.splitOnP (fun a => a == '/') with _ | ⟨h0, t⟩
      · exact absurd hs (List.splitOnP_ne_nil _ xs)
      · rw [hs] at hc
        simp only [List.modifyHead, List.mem_cons] at hc
        rcases hc with h | h
        · subst h
          intro hmem
          rcases List.mem_cons.mp hmem with h | h
          · exact hx h.symm
          · exact ih h0 (by rw [List.splitOn, hs]; exact List.mem_cons_self _ _) h
        · exact ih c (by rw [List.splitOn, hs]; exact List.mem_cons.mpr (Or.inr h))

/-! Facts about the component loop of `normpath`. -/

theorem npStep_nil_comp (slashes : Nat) (acc : List (List Char)) :
    npStep slashes acc [] = acc := by
  simp [npStep]

theorem npStep_seg (slashes : Nat) (acc : List (List Char)) {comp : List Char}
    (h : Seg comp) : npStep slashes acc comp = acc ++ [comp] := by
  rw [npStep, if_neg (by push_neg; exact ⟨h.1, h.2.2.1⟩), if_pos (Or.inl h.2.2.2)]

theorem npStep_all_seg (slashes : Nat) (hs : slashes ≠ 0) (acc : List (List Char))
    (hacc : ∀ x ∈ acc, Seg x) {comp : List Char} (hc : '/' ∉ comp) :
    ∀ x ∈ npStep slashes acc comp, Seg x := by
  intro x hx
  rw [npStep] at hx
  by_cases h1 : comp = [] ∨ comp = ['.']
  · rw [if_pos h1] at hx; exact hacc x hx
  · rw [if_neg h1] at hx
    by_cases h2 : comp ≠ ['.', '.'] ∨ (slashes = 0 ∧ acc = []) ∨
        (acc ≠ [] ∧ acc.getLast? = some ['.', '.'])
    · rw [if_pos h2] at hx
      rcases List.mem_append.mp hx with h | h
      · exact hacc x h
      · have hx' : x = comp := by simpa using h
        subst hx'
        push_neg at h1
        rcases h2 with h2 | h2 | h2
        · exact ⟨h1.1, hc, h1.2, h2⟩
        · exact absurd h2.1 hs
        · exact absurd ((hacc _ (List.mem_of_getLast?_eq_some h2.2)).2.2.2) (by simp)
    · rw [if_neg h2] at hx
      by_cases h3 : acc ≠ []
      · rw [if_pos h3] at hx
        exact hacc x (List.dropLast_subset acc hx)
      · rw [if_neg h3] at hx; exact hacc x hx

theorem foldl_npStep_all_seg (slashes : Nat) (hs : slashes ≠ 0) :
    ∀ (comps : List (List Char)), (∀ c ∈ comps, '/' ∉ c) →
    ∀ (acc : List (List Char)), (∀ x ∈ acc, Seg x) →
    ∀ x ∈ comps.foldl (npStep slashes) acc, Seg x := by
  intro comps
  induction comps with
  | nil => intro _ acc hacc x hx; exact hacc x hx
  | cons c cs ih =>
    intro hc acc hacc x hx
    exact ih (fun d hd => hc d (List.mem_cons.mpr (Or.inr hd)))
      (npStep slashes acc c)
      (npStep_all_seg slashes hs acc hacc (hc c (List.mem_cons_self _ _))) x hx

theorem foldl_npStep_segs (slashes : Nat) :
    ∀ (comps : List (List Char)), (∀ c ∈ comps, Seg c) →
    ∀ (acc : List (List Char)), comps.foldl (npStep slashes) acc = acc ++ comps := by
  intro comps
  induction comps with
  | nil => intro _ acc; simp
  | cons c cs ih =>
    intro hc acc
    rw [List.foldl_cons, npStep_seg slashes acc (hc c (List.mem_cons_self _ _)),
      ih (fun d hd => hc d (List.mem_cons.mpr (Or.inr hd))), List.append_assoc]
    rfl

theorem foldl_npStep_pad (slashes : Nat) (n : Nat) (acc : List (List Char)) :
    (List.replicate n ([] : List Char)).foldl (npStep slashes) acc = acc := by
  induction n generalizing acc with
  | zero => rfl
  | succ k ih => rw [List.replicate_succ, List.foldl_cons, npStep_nil_comp]; exact ih acc

/-! Facts about `List.intercalate` with a single separator. -/

theorem intercalate_single (c : List Char) : List.intercalate ['/'] [c] = c := by
  simp [List.intercalate, List.intersperse_singleton]

theorem intercalate_cons2 (c d : List Char) (cs : List (List Char)) :
    List.intercalate ['/'] (c :: d :: cs) = c ++ '/' :: List.intercalate ['/'] (d :: cs) := by
  simp [List.intercalate, List.intersperse_cons_cons]

theorem intercalate_cons_pfx (c : List Char) (cs : List (List Char)) :
    ∃ t, List.intercalate ['/'] (c :: cs) = c ++ t := by
  cases cs with
  | nil => exact ⟨[], by simp [intercalate_single]⟩
  | cons d ds => exact ⟨'/' :: List.intercalate ['/'] (d :: ds), intercalate_cons2 c d ds⟩

theorem intercalate_head (comps : List (List Char)) (h : ∀ x ∈ comps, Seg x) :
    comps = [] ∨ ∃ c0 t, List.intercalate ['/'] comps = c0 :: t ∧ c0 ≠ '/' := by
  cases comps with
  | nil => exact Or.inl rfl
  | cons c cs =>
    refine Or.inr ?_
    obtain ⟨c0, ct, hc, hc0⟩ := seg_head (h c (List.mem_cons_self _ _))
    obtain ⟨t, ht⟩ := intercalate_cons_pfx c cs
    exact ⟨c0, ct ++ t, by rw [ht, hc]; rfl, hc0⟩

theorem intercalate_append2 (as bs : List (List Char)) (ha : as ≠ []) (hb : bs ≠ []) :
    List.intercalate ['/'] (as ++ bs) =
      List.intercalate ['/'] as ++ '/' :: List.intercalate ['/'] bs := by
  induction as with
  | nil => exact absurd rfl ha
  | cons a as2 ih =>
    cases as2 with
    | nil =>
      cases bs with
      | nil => exact absurd rfl hb
      | cons b bs2 => rw [List.singleton_append, intercalate_cons2, intercalate_single]
    | cons a2 as3 =>
      have h0 : a :: a2 :: as3 ++ bs = a :: a2 :: (as3 ++ bs) := by simp
      rw [h0, intercalate_cons2 a a2 (as3 ++ bs), ← List.cons_append a2 as3 bs,
        ih (by simp), intercalate_cons2 a a2 as3, List.append_assoc]
      rfl

/-! Evaluation of `List.isPrefixOf` on characters. -/

theorem isPrefixOf_nil_left (l : List Char) : List.isPrefixOf ([] : List Char) l = true := by
  cases l <;> rfl

theorem isPrefixOf_cons_nil (a : Char) (as : List Char) :
    List.isPrefixOf (a :: as) [] = false := rfl

theorem isPrefixOf_cons2 (a b : Char) (as bs : List Char) :
    List.isPrefixOf (a :: as) (b :: bs) = ((a == b) && List.isPrefixOf as bs) := rfl

theorem intercalate_no_slash_head (comps : List (List Char)) (h : ∀ x ∈ comps, Seg x) :
    List.isPrefixOf ['/'] (List.intercalate ['/'] comps) = false := by
  rcases intercalate_head comps h with h0 | ⟨c0, t, he, hc0⟩
  · rw [h0]; rfl
  · rw [he, isPrefixOf_cons2]
    simp [Ne.symm hc0]

/-! Shape and idempotence of `normpath`. -/

theorem npSlashes_pos (s : String) (h : pyStartswith s "/" = true) :
    npSlashes s = 1 ∨ npSlashes s = 2 := by
  rw [npSlashes, if_pos h]
  by_cases h2 : (pyStartswith s "//" && !(pyStartswith s "///")) = true
  · rw [if_pos h2]; exact Or.inr rfl
  · rw [if_neg h2]; exact Or.inl rfl

theorem data_ne_nil_of_slash (s : String) (h : pyStartswith s "/" = true) : s.data ≠ [] := by
  intro he
  rw [pyStartswith] at h
  rw [he] at h
  exact absurd h (by rw [isPrefixOf_cons_nil]; simp)

theorem normpath_eval (s : String) (hne : s ≠ "") :
    normpath s =
      (if List.replicate (npSlashes s) '/' ++
          List.intercalate ['/'] ((s.data.splitOn '/').foldl (npStep (npSlashes s)) []) = []
        then "."
        else String.mk (List.replicate (npSlashes s) '/' ++
          List.intercalate ['/'] ((s.data.splitOn '/').foldl (npStep (npSlashes s)) []))) := by
  rw [normpath, if_neg hne]

theorem normpath_abs (s : String) (h : pyStartswith s "/" = true) :
    ∃ comps, (∀ x ∈ comps, Seg x) ∧
      (normpath s).data =
        List.replicate (npSlashes s) '/' ++ List.intercalate ['/'] comps ∧
      (npSlashes s = 1 ∨ npSlashes s = 2) := by
  have hne : s ≠ "" := by
    intro he
    exact data_ne_nil_of_slash s h (by simp [he])
  have hsl := npSlashes_pos s h
  have hs0 : npSlashes s ≠ 0 := by rcases hsl with h1 | h1 <;> simp [h1]
  refine ⟨(s.data.splitOn '/').foldl (npStep (npSlashes s)) [], ?_, ?_, hsl⟩
  · exact foldl_npStep_all_seg _ hs0 _ (mem_splitOn_slash_free s.data) [] (by simp)
  · have hout : List.replicate (npSlashes s) '/' ++
        List.intercalate ['/'] ((s.data.splitOn '/').foldl (npStep (npSlashes s)) []) ≠ [] := by
      rcases hsl with h1 | h1 <;> simp [h1, List.replicate_succ]
    rw [normpath_eval s hne, if_neg hout]

theorem splitOn_slash_cons (l : List Char) :
    ('/' :: l).splitOn '/' = [] :: l.splitOn '/' := by
  simp [List.splitOn, List.splitOnP_cons]

theorem splitOn_segs (comps : List (List Char)) (h2 : ∀ x ∈ comps, Seg x)
    (hc : comps ≠ []) :
    (List.intercalate ['/'] comps).splitOn '/' = comps :=
  List.splitOn_intercalate _ '/' (fun l hl => (h2 l hl).2.1) hc

theorem normpath_canon_zero (comps : List (List Char))
    (h2 : ∀ x ∈ comps, Seg x) (h3 : comps ≠ []) :
    normpath (String.mk (List.intercalate ['/'] comps)) =
      String.mk (List.intercalate ['/'] comps) := by
  rcases intercalate_head comps h2 with h0 | ⟨c0, t, he, hc0⟩
  · exact absurd h0 h3
  · have hne : String.mk (List.intercalate ['/'] comps) ≠ "" :=
      mk_ne_empty (by rw [he]; simp)
    have hst : pyStartswith (String.mk (List.intercalate ['/'] comps)) "/" = false := by
      rw [pyStartswith, mk_data, he, isPrefixOf_cons2]
      simp [Ne.symm hc0]
    have hsl : npSlashes (String.mk (List.intercalate ['/'] comps)) = 0 := by
      rw [npSlashes, if_neg (by rw [hst]; simp)]
    rw [normpath_eval _ hne, hsl, mk_data, splitOn_segs comps h2 h3,
      foldl_npStep_segs 0 comps h2 [], List.nil_append, List.replicate_zero,
      List.nil_append, if_neg (by rw [he]; simp)]

theorem normpath_canon_one (comps : List (List Char)) (h2 : ∀ x ∈ comps, Seg x) :
    normpath (String.mk ('/' :: List.intercalate ['/'] comps)) =
      String.mk ('/' :: List.intercalate ['/'] comps) := by
  have hhead := intercalate_no_slash_head comps h2
  have hne : String.mk ('/' :: List.intercalate ['/'] comps) ≠ "" :=
    mk_ne_empty (by simp)
  have hst1 : pyStartswith (String.mk ('/' :: List.intercalate ['/'] comps)) "/" = true := by
    rw [pyStartswith, mk_data]
    show (('/' == '/') && List.isPrefixOf [] (List.intercalate ['/'] comps)) = true
    simp [isPrefixOf_nil_left]
  have hst2 : pyStartswith (String.mk ('/' :: List.intercalate ['/'] comps)) "//" = false := by
    rw [pyStartswith, mk_data]
    show (('/' == '/') && List.isPrefixOf ['/'] (List.intercalate ['/'] comps)) = false
    rw [hhead]
    simp
  have hsl : npSlashes (String.mk ('/' :: List.intercalate ['/'] comps)) = 1 := by
    rw [npSlashes, if_pos hst1, if_neg (by rw [hst2]; simp)]
  rw [normpath_eval _ hne, hsl, mk_data, splitOn_slash_cons]
  cases hc : comps with
  | nil =>
    rw [show (List.intercalate ['/'] ([] : List (List Char))).splitOn '/' = [[]] from rfl,
      show List.foldl (npStep 1) [] [[], []] = ([] : List (List Char)) from rfl,
      if_neg (by simp [List.replicate_succ])]
    rfl
  | cons c cs =>
    rw [← hc, splitOn_segs comps h2 (by rw [hc]; simp),
      List.foldl_cons, npStep_nil_comp, foldl_npStep_segs 1 comps h2 [], List.nil_append,
      if_neg (by simp [List.replicate_succ])]
    rfl

theorem normpath_canon_two (comps : List (List Char)) (h2 : ∀ x ∈ comps, Seg x) :
    normpath (String.mk ('/' :: '/' :: List.intercalate ['/'] comps)) =
      String.mk ('/' :: '/' :: List.intercalate ['/'] comps) := by
  have hhead := intercalate_no_slash_head comps h2
  have hne : String.mk ('/' :: '/' :: List.intercalate ['/'] comps) ≠ "" :=
    mk_ne_empty (by simp)
  have hst1 : pyStartswith (String.mk ('/' :: '/' :: List.intercalate ['/'] comps)) "/"
      = true := by
    rw [pyStartswith, mk_data]
    show (('/' == '/') && List.isPrefixOf [] ('/' :: List.intercalate ['/'] comps)) = true
    simp [isPrefixOf_nil_left]
  have hst2 : pyStartswith (String.mk ('/' :: '/' :: List.intercalate ['/'] comps)) "//"
      = true := by
    rw [pyStartswith, mk_data]
    show (('/' == '/') && (('/' == '/') &&
      List.isPrefixOf [] (List.intercalate ['/'] comps))) = true
    simp [isPrefixOf_nil_left]
  have hst3 : pyStartswith (String.mk ('/' :: '/' :: List.intercalate ['/'] comps)) "///"
      = false := by
    rw [pyStartswith, mk_data]
    show (('/' == '/') && (('/' == '/') &&
      List.isPrefixOf ['/'] (List.intercalate ['/'] comps))) = false
    rw [hhead]
    simp
  have hsl : npSlashes (String.mk ('/' :: '/' :: List.intercalate ['/'] comps)) = 2 := by
    rw [npSlashes, if_pos hst1, if_pos (by rw [hst2, hst3]; rfl)]
  rw [normpath_eval _ hne, hsl, mk_data, splitOn_slash_cons, splitOn_slash_cons]
  cases hc : comps with
  | nil =>
    rw [show (List.intercalate ['/'] ([] : List (List Char))).splitOn '/' = [[]] from rfl,
      show List.foldl (npStep 2) [] [[], [], []] = ([] : List (List Char)) from rfl,
      if_neg (by simp [List.replicate_succ])]
    rfl
  | cons c cs =>
    rw [← hc, splitOn_segs comps h2 (by rw [hc]; simp),
      List.foldl_cons, npStep_nil_comp, List.foldl_cons, npStep_nil_comp,
      foldl_npStep_segs 2 comps h2 [], List.nil_append,
      if_neg (by simp [List.replicate_succ])]
    rfl

theorem intercalate_nil_char : List.intercalate ['/'] ([] : List (List Char)) = [] := rfl

theorem normpath_shape_of_fix (base : String) (h1 : normpath base = base)
    (h2 : pyStartswith base "/" = true) (h3 : pyEndswith base "/" = false) :
    ∃ slashes comps, (slashes = 1 ∨ slashes = 2) ∧ comps ≠ [] ∧ (∀ x ∈ comps, Seg x) ∧
      base.data = List.replicate slashes '/' ++ List.intercalate ['/'] comps := by
  obtain ⟨comps, hseg, hdata, hsl⟩ := normpath_abs base h2
  rw [h1] at hdata
  refine ⟨npSlashes base, comps, hsl, ?_, hseg, hdata⟩
  intro hcnil
  rw [hcnil, intercalate_nil_char, List.append_nil] at hdata
  rcases hsl with h | h
  · rw [h] at hdata
    have h4 : pyEndswith base "/" = true := by
      rw [pyEndswith, hdata]; decide
    rw [h4] at h3
    simp at h3
  · rw [h] at hdata
    have h4 : pyEndswith base "/" = true := by
      rw [pyEndswith, hdata]; decide
    rw [h4] at h3
    simp at h3

/-! Facts about `pyJoin2` and `pyJoinList` on segment lists. -/

theorem reverse_head_of_ne_nil {l : List Char} (h : l ≠ []) :
    ∃ d u, l.reverse = d :: u ∧ d ∈ l := by
  cases hr : l.reverse with
  | nil => exact absurd (List.reverse_eq_nil_iff.mp hr) h
  | cons d u =>
    refine ⟨d, u, rfl, ?_⟩
    rw [← List.mem_reverse, hr]
    exact List.mem_cons_self _ _

theorem pyEndswith_slash_false (a : String) (c : Char) (t : List Char)
    (h : a.data.reverse = c :: t) (hc : c ≠ '/') : pyEndswith a "/" = false := by
  rw [pyEndswith]
  show List.isPrefixOf ['/'] a.data.reverse = false
  rw [h, isPrefixOf_cons2]
  simp [Ne.symm hc]

theorem pyJoin2_seg (a p : String) (ha1 : a ≠ "")
    (ha2 : pyEndswith a "/" = false) (hp : Seg p.data) :
    pyJoin2 a p = a ++ "/" ++ p := by
  obtain ⟨c0, t, hpd, hc0⟩ := seg_head hp
  have hb : pyStartswith p "/" = false := by
    rw [pyStartswith, hpd, isPrefixOf_cons2]
    simp [Ne.symm hc0]
  rw [pyJoin2, if_neg (by rw [hb]; simp),
    if_neg (by push_neg; exact ⟨ha1, by rw [ha2]; simp⟩)]

theorem pyJoinList_segs (parts : List String) :
    ∀ (a : String), a ≠ "" → pyEndswith a "/" = false →
    (∀ p ∈ parts, Seg p.data) → parts ≠ [] →
    (pyJoinList a parts).data =
      a.data ++ '/' :: List.intercalate ['/'] (parts.map String.data) := by
  induction parts with
  | nil => intro a _ _ _ hne; exact absurd rfl hne
  | cons p ps ih =>
    intro a ha1 ha2 hp _
    have hpseg : Seg p.data := hp p (List.mem_cons_self _ _)
    have hj : pyJoin2 a p = a ++ "/" ++ p := pyJoin2_seg a p ha1 ha2 hpseg
    have hjdata : (pyJoin2 a p).data = a.data ++ '/' :: p.data := by
      rw [hj, String.data_append, String.data_append]
      rw [List.append_assoc]
      rfl
    cases hps : ps with
    | nil =>
      subst hps
      rw [pyJoinList, List.foldl_cons, List.foldl_nil, hjdata,
        List.map_cons, List.map_nil, intercalate_single]
    | cons p2 ps2 =>
      subst hps
      have hstep : (pyJoinList a (p :: p2 :: ps2)).data
          = (pyJoinList (pyJoin2 a p) (p2 :: ps2)).data := by
        rw [pyJoinList, pyJoinList, List.foldl_cons]
      obtain ⟨d, u, hdu, hdm⟩ := reverse_head_of_ne_nil hpseg.1
      have hd : d ≠ '/' := fun he => hpseg.2.1 (he ▸ hdm)
      have ha1' : pyJoin2 a p ≠ "" := by
        intro he
        have hconr : (pyJoin2 a p).data = [] := by simpa using congrArg String.data he
        rw [hjdata] at hconr
        simp at hconr
      have ha2' : pyEndswith (pyJoin2 a p) "/" = false := by
        refine pyEndswith_slash_false _ d (u ++ '/' :: a.data.reverse) ?_ hd
        rw [hjdata,
          show a.data ++ '/' :: p.data = (a.data ++ ['/']) ++ p.data by simp,
          List.reverse_append, hdu, List.reverse_append]
        simp
      rw [hstep,
        ih (pyJoin2 a p) ha1' ha2' (fun q hq => hp q (List.mem_cons.mpr (Or.inr hq)))
          (by simp),
        hjdata]
      simp [intercalate_cons2]

/-! Facts about `stripDouble` and the shape of `ftpnorm`. -/

theorem stripDouble_one (j : List Char) (hj : List.isPrefixOf ['/'] j = false) :
    stripDouble ('/' :: j) = '/' :: j := by
  cases j with
  | nil => rfl
  | cons c t =>
    have hc : c ≠ '/' := by
      intro he
      rw [he, isPrefixOf_cons2, isPrefixOf_nil_left] at hj
      simp at hj
    show (if ('/' : Char) = '/' ∧ c = '/' then stripDouble (c :: t) else '/' :: c :: t)
      = '/' :: c :: t
    rw [if_neg (fun h => hc h.2)]

theorem stripDouble_two (j : List Char) (hj : List.isPrefixOf ['/'] j = false) :
    stripDouble ('/' :: '/' :: j) = '/' :: j := by
  show (if ('/' : Char) = '/' ∧ ('/' : Char) = '/' then stripDouble ('/' :: j)
    else '/' :: '/' :: j) = '/' :: j
  rw [if_pos ⟨rfl, rfl⟩, stripDouble_one j hj]

theorem pyStartswith_mk_slash_cons (j : List Char) :
    pyStartswith (String.mk ('/' :: j)) "/" = true := by
  rw [pyStartswith, mk_data]
  show (('/' == '/') && List.isPrefixOf [] j) = true
  rw [isPrefixOf_nil_left]
  simp

theorem pyStartswith_append_slash (a b : String) (h : pyStartswith a "/" = true) :
    pyStartswith (a ++ b) "/" = true := by
  rw [pyStartswith_iff] at h ⊢
  rw [String.data_append]
  exact h.trans (List.prefix_append _ _)

theorem ftpnorm_eval (fs : FS) (v : String) :
    ftpnorm fs v =
      (if pyStartswith (String.mk (stripDouble
          (if pyStartswith v "/" then normpath v
            else normpath (pyJoin2 fs.cwd v)).data)) "/"
        then String.mk (stripDouble
          (if pyStartswith v "/" then normpath v
            else normpath (pyJoin2 fs.cwd v)).data)
        else "/" ++ String.mk (stripDouble
          (if pyStartswith v "/" then normpath v
            else normpath (pyJoin2 fs.cwd v)).data)) := by
  rw [ftpnorm]

theorem ftpnorm_shape (fs : FS) (v : String) (hcwd : pyStartswith fs.cwd "/" = true) :
    ∃ comps, (∀ x ∈ comps, Seg x) ∧
      (ftpnorm fs v).data = '/' :: List.intercalate ['/'] comps := by
  have habs : ∃ u, (if pyStartswith v "/" then normpath v
      else normpath (pyJoin2 fs.cwd v)) = normpath u ∧ pyStartswith u "/" = true := by
    by_cases h : pyStartswith v "/" = true
    · exact ⟨v, by rw [if_pos h], h⟩
    · refine ⟨pyJoin2 fs.cwd v, by rw [if_neg h], ?_⟩
      rw [pyJoin2, if_neg h]
      by_cases h2 : (fs.cwd = "" ∨ pyEndswith fs.cwd "/" = true)
      · rw [if_pos h2]
        exact pyStartswith_append_slash _ _ hcwd
      · rw [if_neg h2]
        exact pyStartswith_append_slash _ _ (pyStartswith_append_slash _ _ hcwd)
  obtain ⟨u, hu, hu2⟩ := habs
  obtain ⟨comps, hseg, hdata, hsl⟩ := normpath_abs u hu2
  have hhead := intercalate_no_slash_head comps hseg
  refine ⟨comps, hseg, ?_⟩
  rw [ftpnorm_eval, hu]
  rcases hsl with h | h
  · rw [h] at hdata
    have hd1 : (normpath u).data = '/' :: List.intercalate ['/'] comps := by
      rw [hdata]
      rfl
    rw [hd1, stripDouble_one _ hhead, if_pos (pyStartswith_mk_slash_cons _)]
  · rw [h] at hdata
    have hd2 : (normpath u).data = '/' :: '/' :: List.intercalate ['/'] comps := by
      rw [hdata]
      rfl
    rw [hd2, stripDouble_two _ hhead, if_pos (pyStartswith_mk_slash_cons _)]

theorem ftpnorm_canon (fs : FS) (comps : List (List Char)) (h : ∀ x ∈ comps, Seg x) :
    ftpnorm fs (String.mk ('/' :: List.intercalate ['/'] comps)) =
      String.mk ('/' :: List.intercalate ['/'] comps) := by
  have hst := pyStartswith_mk_slash_cons (List.intercalate ['/'] comps)
  rw [ftpnorm_eval, if_pos hst, normpath_canon_one comps h, mk_data,
    stripDouble_one _ (intercalate_no_slash_head comps h),
    if_pos (pyStartswith_mk_slash_cons _)]

theorem ftpnorm_str (fs : FS) (v : String) (hcwd : pyStartswith fs.cwd "/" = true) :
    ∃ comps, (∀ x ∈ comps, Seg x) ∧
      ftpnorm fs v = String.mk ('/' :: List.intercalate ['/'] comps) := by
  obtain ⟨comps, hseg, hdata⟩ := ftpnorm_shape fs v hcwd
  exact ⟨comps, hseg, string_eq_of_data hdata⟩

theorem ftpnorm_idem (fs : FS) (v : String) (hcwd : pyStartswith fs.cwd "/" = true) :
    ftpnorm fs (ftpnorm fs v) = ftpnorm fs v := by
  obtain ⟨comps, hseg, he⟩ := ftpnorm_str fs v hcwd
  rw [he, ftpnorm_canon fs comps hseg]

theorem toAbsolute_eval (fs : FS) (v : String) :
    toAbsoluteFtppath fs v =
      (if !(pyStartswith (ftpnorm fs v) "/") then normpath (fs.cwd ++ "/" ++ ftpnorm fs v)
        else ftpnorm fs v) := by
  rw [toAbsoluteFtppath]

theorem toAbsolute_eq (fs : FS) (v : String) (hcwd : pyStartswith fs.cwd "/" = true) :
    toAbsoluteFtppath fs v = ftpnorm fs v := by
  obtain ⟨comps, hseg, he⟩ := ftpnorm_str fs v hcwd
  rw [toAbsolute_eval, he, if_neg (by rw [pyStartswith_mk_slash_cons]; simp)]

theorem resolve_eval (fs : FS) (v : String) :
    resolve fs v =
      (match (pySplitChar (ftpnorm fs v) '/').filter (fun p => p ≠ "") with
        | [] => (none, [])
        | p0 :: rest =>
          match findMount fs p0 with
          | some m => (some m, rest)
          | none => (some p0, rest)) := by
  rw [resolve]

theorem parts_of_shape (comps : List (List Char)) (h : ∀ x ∈ comps, Seg x) :
    (pySplitChar (String.mk ('/' :: List.intercalate ['/'] comps)) '/').filter
        (fun p => p ≠ "") = comps.map String.mk := by
  rw [pySplitChar, mk_data, splitOn_slash_cons]
  cases hc : comps with
  | nil => rfl
  | cons c cs =>
    rw [← hc, splitOn_segs comps h (by rw [hc]; simp), List.map_cons, List.filter_cons]
    rw [if_neg (by simp)]
    refine List.filter_eq_self.mpr ?_
    intro p hp
    obtain ⟨cc, hcc, hcceq⟩ := List.mem_map.mp hp
    rw [← hcceq]
    simpa using mk_ne_empty (h cc hcc).1

/-! Claim C2: characterization of `validpath`. -/

/-- Specification predicate for `isValidPath`, written from the spec text:
the path is the virtual root, or its normalized form is case-insensitively
equal to, or a separator-bounded strict descendant of, one of the user's
normalized mount real paths. -/
def specIsValidPath (fs : FS) (path : String) : Prop :=
  path = "/" ∨ ∃ mb ∈ fs.dirMap,
    normcase (normpath path) = normcase (normpath mb.2) ∨
    pyStartswith (normcase (normpath path)) (normcase (normpath mb.2) ++ "/") = true

theorem validpathMatch_iff (p : String) (mb : String × String) :
    validpathMatch p mb = true ↔
      (normcase p = normcase (normpath mb.2) ∨
        pyStartswith (normcase p) (normcase (normpath mb.2) ++ "/") = true) := by
  simp [validpathMatch]

/-- C2: `validpath(path)` is true iff `path == "/"` or the normalized path
is case-insensitively equal to, or a separator-bounded strict descendant
of, one of the user's normalized mount real paths; `validpath("/")` is
always true, and the prefix test demands a following separator, so
`"/docs2"` does not match a mount at `"/docs"`. -/
theorem validpath_spec :
    (∀ fs : FS, validpath fs "/" = true) ∧
    (∀ (fs : FS) (path : String), validpath fs path = true ↔ specIsValidPath fs path) ∧
    validpath ⟨[("docs", "/docs")], "/"⟩ "/docs2" = false := by
  refine ⟨fun fs => by simp [validpath], ?_, by decide⟩
  intro fs path
  by_cases hp : path = "/"
  · subst hp
    simp [validpath, specIsValidPath]
  · rw [validpath, if_neg hp]
    constructor
    · intro h
      obtain ⟨mb, hmem, hmatch⟩ := List.any_eq_true.mp h
      exact Or.inr ⟨mb, hmem, (validpathMatch_iff _ _).mp hmatch⟩
    · intro h
      rcases h with h | ⟨mb, hmem, hmatch⟩
      · exact absurd h hp
      · exact List.any_eq_true.mpr ⟨mb, hmem, (validpathMatch_iff _ _).mpr hmatch⟩

/-! Claim C1: fail-closed default of `has_perm`. -/

/-- C1: for a registered user, any permission character, and any path that
is not the virtual root, matches no per-directory override (by the override
comparison of the source) and matches no mount real path (equality or
separator-bounded descent after `normcase`), `has_perm` answers false —
also for characters present in the base permission string. -/
theorem has_perm_fail_closed (t : UserTable) (udm : UserDirMap) (username : String)
    (r : UserRecord) (perm : Char) (path : String)
    (hu : lookupUser t username = some r)
    (hroot : path ≠ "/")
    (hov : ∀ d ∈ r.operms, opermMatch (normcase path) d = false)
    (hmt : ∀ rb ∈ userDirs udm username, mountPermMatch (normcase path) rb = false) :
    has_perm t udm username perm (some path) = some false := by
  have hfind : r.operms.find? (opermMatch (normcase path)) = none :=
    List.find?_eq_none.mpr (fun d hd => by rw [hov d hd]; simp)
  have hany : (userDirs udm username).any (mountPermMatch (normcase path)) = false :=
    List.any_eq_false.mpr (fun rb hrb => by rw [hmt rb hrb]; simp)
  simp [has_perm, hu, if_neg hroot, hfind, hany]

/-- Witness for C1 at a concrete configuration: base permission contains
`r`, an override at `/ov` and a mount at `/d` exist, yet the unrelated path
`/elsewhere` is denied even for `r`. -/
theorem has_perm_fail_closed_witness :
    has_perm [("u", ⟨"s$h", "/d", "elr", [("/ov", "w", true)], "", ""⟩)]
      [("u", [("m", "/d")])] "u" 'r' (some "/elsewhere") = some false :=
  has_perm_fail_closed [("u", ⟨"s$h", "/d", "elr", [("/ov", "w", true)], "", ""⟩)]
    [("u", [("m", "/d")])] "u" ⟨"s$h", "/d", "elr", [("/ov", "w", true)], "", ""⟩
    'r' "/elsewhere" rfl (by decide) (by decide) (by decide)

/-! Claim C9: `isdir` on virtual paths. -/

/-- C9: `isdir("/")` is true; `isdir` answers true for any path whose
normalized, case-folded form equals a mount real path, for every possible
disk predicate (the disk is never consulted); every other non-root path
defers to the `os.path.isdir` oracle. -/
theorem isdir_virtual_paths :
    (∀ (fs : FS) (osIsdir : String → Bool), isdir fs osIsdir "/" = true) ∧
    (∀ (fs : FS) (osIsdir : String → Bool) (path : String) (mb : String × String),
      mb ∈ fs.dirMap → normcase (normpath path) = normcase (normpath mb.2) →
      isdir fs osIsdir path = true) ∧
    (∀ (fs : FS) (osIsdir : String → Bool) (path : String), path ≠ "/" →
      (∀ mb ∈ fs.dirMap, normcase (normpath path) ≠ normcase (normpath mb.2)) →
      isdir fs osIsdir path = osIsdir path) := by
  refine ⟨fun fs os => by simp [isdir], ?_, ?_⟩
  · intro fs os path mb hmem hcase
    by_cases hp : path = "/"
    · subst hp; simp [isdir]
    · have hany : fs.dirMap.any
          (fun mb2 => normcase (normpath path) == normcase (normpath mb2.2)) = true :=
        List.any_eq_true.mpr ⟨mb, hmem, by simp [hcase]⟩
      simp [isdir, if_neg hp, hany]
  · intro fs os path hp hno
    have hany : fs.dirMap.any
        (fun mb2 => normcase (normpath path) == normcase (normpath mb2.2)) = false :=
      List.any_eq_false.mpr (fun mb hmem => by simp [hno mb hmem])
    simp [isdir, if_neg hp, hany]

/-- Witness for C9: with a mount whose real directory the disk oracle calls
absent, the mount root is still a directory, and an unrelated path gets the
oracle's answer. -/
theorem isdir_virtual_paths_witness :
    isdir ⟨[("m", "/gone")], "/"⟩ (fun _ => false) "/gone" = true ∧
    isdir ⟨[("m", "/gone")], "/"⟩ (fun _ => false) "/other" = false :=
  ⟨isdir_virtual_paths.2.1 ⟨[("m", "/gone")], "/"⟩ (fun _ => false) "/gone" ("m", "/gone")
      (by decide) (by decide),
   isdir_virtual_paths.2.2 ⟨[("m", "/gone")], "/"⟩ (fun _ => false) "/other"
      (by decide) (by decide)⟩

/-! Claim C5: `rmdir` protects mount roots. -/

/-- C5: for any path whose normalized, case-folded form equals a mount real
path, `rmdir` yields the distinct `FilesystemError` "Cannot remove a mount
point." for every possible disk behaviour — in particular also when the
real `os.rmdir` would have succeeded on an empty directory — and for every
other path it performs exactly the ordinary OS removal. -/
theorem rmdir_mount_root_protected :
    (∀ (fs : FS) (osRmdir : String → Option String) (path : String) (mb : String × String),
      mb ∈ fs.dirMap → normcase (normpath path) = normcase (normpath mb.2) →
      rmdir fs osRmdir path = .fsError "Cannot remove a mount point.") ∧
    (∀ (fs : FS) (osRmdir : String → Option String) (path : String),
      (∀ mb ∈ fs.dirMap, normcase (normpath path) ≠ normcase (normpath mb.2)) →
      (osRmdir path = none → rmdir fs osRmdir path = .osOk) ∧
      (∀ e, osRmdir path = some e → rmdir fs osRmdir path = .osError e)) := by
  constructor
  · intro fs os path mb hmem hcase
    have hany : fs.dirMap.any
        (fun mb2 => normcase (normpath path) == normcase (normpath mb2.2)) = true :=
      List.any_eq_true.mpr ⟨mb, hmem, by simp [hcase]⟩
    simp [rmdir, hany]
  · intro fs os path hno
    have hany : fs.dirMap.any
        (fun mb2 => normcase (normpath path) == normcase (normpath mb2.2)) = false :=
      List.any_eq_false.mpr (fun mb hmem => by simp [hno mb hmem])
    constructor
    · intro hos
      simp [rmdir, hany, hos]
    · intro e hos
      simp [rmdir, hany, hos]

/-- Witness for C5: the OS oracle would happily remove both paths (empty
directories), yet the mount root is refused with the distinct error while
the other path is removed normally. -/
theorem rmdir_mount_root_protected_witness :
    rmdir ⟨[("docs", "/d")], "/"⟩ (fun _ => none) "/d"
        = .fsError "Cannot remove a mount point." ∧
    rmdir ⟨[("docs", "/d")], "/"⟩ (fun _ => none) "/d/sub" = .osOk :=
  ⟨rmdir_mount_root_protected.1 ⟨[("docs", "/d")], "/"⟩ (fun _ => none) "/d" ("docs", "/d")
      (by decide) (by decide),
   (rmdir_mount_root_protected.2 ⟨[("docs", "/d")], "/"⟩ (fun _ => none) "/d/sub"
      (by decide)).1 rfl⟩

/-! Claim C7: authentication failure reasons. -/

/-- C7: `validate_authentication` raises the generic failure for an unknown
user, the distinct "not configured" reason for a registered user with an
empty stored verifier, and the "invalid format" reason for a nonempty
stored verifier without the dollar separator.  The modelled function reads
the user table and returns only an outcome, so no attempt mutates
authorizer state. -/
theorem validate_authentication_reasons :
    (∀ (H : String → String) (t : UserTable) (u p : String),
      lookupUser t u = none →
      validate_authentication H t u p = .error "Authentication failed.") ∧
    (∀ (H : String → String) (t : UserTable) (u p : String) (r : UserRecord),
      lookupUser t u = some r → r.pwd = "" →
      validate_authentication H t u p
        = .error "Password not configured. Run hash_password.py first.") ∧
    (∀ (H : String → String) (t : UserTable) (u p : String) (r : UserRecord),
      lookupUser t u = some r → r.pwd ≠ "" → pyContains r.pwd '$' = false →
      validate_authentication H t u p = .error "Invalid password hash format.") := by
  refine ⟨?_, ?_, ?_⟩
  · intro H t u p hu
    simp [validate_authentication, hu]
  · intro H t u p r hu hpwd
    simp [validate_authentication, hu, hpwd]
  · intro H t u p r hu hpwd hdollar
    simp [validate_authentication, hu, hpwd, hdollar]

/-- Witness for C7 at concrete tables: all three failure reasons appear. -/
theorem validate_authentication_reasons_witness :
    validate_authentication id [] "ghost" "pw" = .error "Authentication failed." ∧
    validate_authentication id [("u", ⟨"", "/d", "elr", [], "", ""⟩)] "u" "pw"
      = .error "Password not configured. Run hash_password.py first." ∧
    validate_authentication id [("u", ⟨"deadbeef", "/d", "elr", [], "", ""⟩)] "u" "pw"
      = .error "Invalid password hash format." :=
  ⟨validate_authentication_reasons.1 id [] "ghost" "pw" rfl,
   validate_authentication_reasons.2.1 id [("u", ⟨"", "/d", "elr", [], "", ""⟩)] "u" "pw"
      ⟨"", "/d", "elr", [], "", ""⟩ rfl rfl,
   validate_authentication_reasons.2.2 id
      [("u", ⟨"deadbeef", "/d", "elr", [], "", ""⟩)] "u" "pw"
      ⟨"deadbeef", "/d", "elr", [], "", ""⟩ rfl (by decide) (by decide)⟩

/-! Claim C6: password verifier format and round-trip. -/

/-- Lowercase hexadecimal digit test (characters emitted by `bytes.hex()`). -/
def isHexDigitChar (c : Char) : Bool :=
  decide ((('0' ≤ c ∧ c ≤ '9') ∨ ('a' ≤ c ∧ c ≤ 'f')))

theorem hexDigit_facts : ∀ n < 16, isHexDigitChar (hexDigit n) = true ∧ hexDigit n ≠ '$' := by
  decide

theorem hexDigit_inj_all : ∀ n < 16, ∀ m < 16, hexDigit n = hexDigit m → n = m := by
  decide

theorem byteHex_inj : ∀ b < 256, ∀ b2 < 256, byteHex b = byteHex b2 → b = b2 := by
  intro b hb b2 hb2 h
  rw [byteHex, byteHex] at h
  have h1 : hexDigit (b / 16) = hexDigit (b2 / 16) := (List.cons.inj h).1
  have h2 : hexDigit (b % 16) = hexDigit (b2 % 16) := (List.cons.inj (List.cons.inj h).2).1
  have e1 : b / 16 = b2 / 16 := hexDigit_inj_all _ (by omega) _ (by omega) h1
  have e2 : b % 16 = b2 % 16 := hexDigit_inj_all _ (by omega) _ (by omega) h2
  omega

theorem bytesHex_data (bs : List Nat) : (bytesHex bs).data = bs.flatMap byteHex := rfl

theorem bytesHex_length (bs : List Nat) : (bytesHex bs).data.length = 2 * bs.length := by
  induction bs with
  | nil => rfl
  | cons b rest ih =>
    rw [bytesHex_data, List.flatMap_cons, List.length_append, ← bytesHex_data, ih]
    simp [byteHex]
    omega

theorem bytesHex_inj (bs : List Nat) :
    ∀ (bs2 : List Nat), (∀ b ∈ bs, b < 256) → (∀ b ∈ bs2, b < 256) →
    bs.length = bs2.length → bytesHex bs = bytesHex bs2 → bs = bs2 := by
  induction bs with
  | nil =>
    intro bs2 _ _ hlen _
    cases bs2 with
    | nil => rfl
    | cons b r => simp at hlen
  | cons b rest ih =>
    intro bs2 h1 h2 hlen h
    cases bs2 with
    | nil => simp at hlen
    | cons b2 rest2 =>
      have hdata : (b :: rest).flatMap byteHex = (b2 :: rest2).flatMap byteHex := by
        have := congrArg String.data h
        rwa [bytesHex_data, bytesHex_data] at this
      rw [List.flatMap_cons, List.flatMap_cons, byteHex, byteHex] at hdata
      have e1 : hexDigit (b / 16) = hexDigit (b2 / 16) := (List.cons.inj hdata).1
      have hdata2 := (List.cons.inj hdata).2
      have e2 : hexDigit (b % 16) = hexDigit (b2 % 16) := (List.cons.inj hdata2).1
      have hdata3 := (List.cons.inj hdata2).2
      have hb : b < 256 := h1 b (List.mem_cons_self _ _)
      have hb2 : b2 < 256 := h2 b2 (List.mem_cons_self _ _)
      have ebb : b = b2 := by
        have d1 := hexDigit_inj_all _ (by omega) _ (by omega) e1
        have d2 := hexDigit_inj_all _ (by omega) _ (by omega) e2
        omega
      have erest : rest = rest2 :=
        ih rest2 (fun x hx => h1 x (List.mem_cons.mpr (Or.inr hx)))
          (fun x hx => h2 x (List.mem_cons.mpr (Or.inr hx)))
          (by simpa using hlen)
          (string_eq_of_data (by rw [bytesHex_data, bytesHex_data]; exact hdata3))
      rw [ebb, erest]

theorem bytesHex_chars (bs : List Nat) (h : ∀ b ∈ bs, b < 256) :
    ∀ c ∈ (bytesHex bs).data, isHexDigitChar c = true := by
  intro c hc
  rw [bytesHex_data] at hc
  obtain ⟨b, hb, hcb⟩ := List.mem_flatMap.mp hc
  have hblt := h b hb
  rw [byteHex] at hcb
  rcases List.mem_cons.mp hcb with h1 | h1
  · exact h1 ▸ (hexDigit_facts (b / 16) (by omega)).1
  · have : c = hexDigit (b % 16) := by simpa using h1
    exact this ▸ (hexDigit_facts (b % 16) (by omega)).1

theorem bytesHex_no_dollar (bs : List Nat) (h : ∀ b ∈ bs, b < 256) :
    '$' ∉ (bytesHex bs).data := by
  intro hmem
  have := bytesHex_chars bs h '$' hmem
  simp [isHexDigitChar] at this

theorem pySplitOnce_at_dollar (s rest : String) (h : '$' ∉ s.data) :
    pySplitOnce (s ++ "$" ++ rest) '$' = (s, rest) := by
  have hd : (s ++ "$" ++ rest).data = s.data ++ '$' :: rest.data := by
    rw [String.data_append, String.data_append]
    simp
  have hpos : ∀ c ∈ s.data, (fun x => decide (x ≠ '$')) c = true := by
    intro c hc
    simp only [decide_eq_true_iff]
    exact fun he => h (he ▸ hc)
  rw [pySplitOnce, hd]
  have ht : (s.data ++ '$' :: rest.data).takeWhile (fun x => decide (x ≠ '$')) = s.data := by
    rw [List.takeWhile_append_of_pos hpos]
    simp [List.takeWhile_cons]
  have hw : (s.data ++ '$' :: rest.data).dropWhile (fun x => decide (x ≠ '$'))
      = '$' :: rest.data := by
    rw [List.dropWhile_append_of_pos hpos]
    simp [List.dropWhile_cons]
  rw [ht, hw]
  constructor

theorem string_append_left_cancel {a b c : String} (h : a ++ b = a ++ c) : b = c := by
  apply string_eq_of_data
  have := congrArg String.data h
  rw [String.data_append, String.data_append] at this
  exact List.append_cancel_left this

/-- C6: `hash_password` yields an ASCII verifier `salt$hash` where the salt
is the 32-character lowercase hex encoding of the 16 random bytes and the
hash is `H(salt ++ P)` (the SHA-256 hex digest abstracted as the injective
function `H`); authentication against this stored verifier succeeds exactly
for the password `P`; and two verifiers for the same password built from
distinct salts differ, while each still authenticates `P` (the second
conjunct applies to every salt). -/
theorem hash_password_roundtrip (H : String → String) (salt : List Nat) (P : String)
    (hlen : salt.length = 16) (hbytes : ∀ b ∈ salt, b < 256)
    (hinj : Function.Injective H) :
    (∃ s hsh : String, hash_password H salt P = s ++ "$" ++ hsh ∧ s = bytesHex salt ∧
      pyLen s = 32 ∧ (∀ c ∈ s.data, isHexDigitChar c = true) ∧ hsh = H (s ++ P)) ∧
    (∀ (t : UserTable) (u : String) (r : UserRecord) (supplied : String),
      lookupUser t u = some r → r.pwd = hash_password H salt P →
      (validate_authentication H t u supplied = .ok () ↔ supplied = P)) ∧
    (∀ salt2 : List Nat, salt2.length = 16 → (∀ b ∈ salt2, b < 256) → salt2 ≠ salt →
      hash_password H salt2 P ≠ hash_password H salt P) := by
  have hnod := bytesHex_no_dollar salt hbytes
  refine ⟨⟨bytesHex salt, H (bytesHex salt ++ P), rfl, rfl, ?_, bytesHex_chars salt hbytes, rfl⟩,
    ?_, ?_⟩
  · rw [pyLen, bytesHex_length, hlen]
  · intro t u r supplied hu hpwd
    have hstored : r.pwd = bytesHex salt ++ "$" ++ H (bytesHex salt ++ P) := hpwd
    have hne : r.pwd ≠ "" := by
      rw [hstored]
      intro he
      have := congrArg String.data he
      rw [String.data_append, String.data_append] at this
      simp at this
    have hdol : pyContains r.pwd '$' = true := by
      rw [pyContains, hstored, String.data_append, String.data_append]
      simp
    have hsplit : pySplitOnce r.pwd '$' = (bytesHex salt, H (bytesHex salt ++ P)) := by
      rw [hstored]
      exact pySplitOnce_at_dollar _ _ hnod
    rw [validate_authentication, hu]
    simp only [if_neg hne, hdol]
    rw [if_neg (by simp), hsplit]
    constructor
    · intro hok
      by_cases he : H (bytesHex salt ++ supplied) == H (bytesHex salt ++ P)
      · have := hinj (beq_iff_eq.mp he)
        exact string_append_left_cancel this
      · rw [if_neg (by simpa using he)] at hok
        cases hok
    · intro he
      subst he
      simp
  · intro salt2 hlen2 hbytes2 hne12 heq
    have hd := congrArg String.data heq
    rw [hash_password, hash_password, String.data_append, String.data_append,
      String.data_append, String.data_append] at hd
    rw [List.append_assoc, List.append_assoc] at hd
    have hx := List.append_inj hd
      (by rw [bytesHex_length, bytesHex_length, hlen, hlen2])
    exact hne12 (bytesHex_inj salt2 salt hbytes2 hbytes (by rw [hlen, hlen2])
      (string_eq_of_data hx.1))

/-- Witness for C6 with `H = id` (injective) and two concrete salts. -/
theorem hash_password_roundtrip_witness :
    (validate_authentication id
      [("u", ⟨hash_password id (List.replicate 16 0) "pw", "/d", "elr", [], "", ""⟩)]
      "u" "pw" = .ok ()) ∧
    (validate_authentication id
      [("u", ⟨hash_password id (List.replicate 16 0) "pw", "/d", "elr", [], "", ""⟩)]
      "u" "other" ≠ .ok ()) ∧
    hash_password id (List.replicate 16 1) "pw" ≠ hash_password id (List.replicate 16 0) "pw" := by
  have h := hash_password_roundtrip id (List.replicate 16 0) "pw" (by decide) (by decide)
    (fun a b hab => hab)
  have hiff := h.2.1
    [("u", ⟨hash_password id (List.replicate 16 0) "pw", "/d", "elr", [], "", ""⟩)]
    "u" ⟨hash_password id (List.replicate 16 0) "pw", "/d", "elr", [], "", ""⟩ "pw" rfl rfl
  have hiff2 := h.2.1
    [("u", ⟨hash_password id (List.replicate 16 0) "pw", "/d", "elr", [], "", ""⟩)]
    "u" ⟨hash_password id (List.replicate 16 0) "pw", "/d", "elr", [], "", ""⟩ "other" rfl rfl
  refine ⟨hiff.mpr rfl, fun hok => ?_, h.2.2 (List.replicate 16 1) (by decide) (by decide)
    (by decide)⟩
  have := hiff2.mp hok
  exact absurd this (by decide)

/-! Claims C8 and C10: duplicate users during bootstrap. -/

theorem hasUser_iff (t : UserTable) (u : String) :
    hasUser t u = true ↔ ∃ e ∈ t, e.1 = u := by
  rw [hasUser]
  rw [Option.isSome_iff_exists]
  constructor
  · rintro ⟨e, he⟩
    exact ⟨e, List.mem_of_find?_eq_some he, by simpa using List.find?_some he⟩
  · rintro ⟨e, hmem, heq⟩
    have : (t.find? (fun x => x.1 == u)).isSome = true :=
      List.find?_isSome.mpr ⟨e, hmem, by simp [heq]⟩
    exact Option.isSome_iff_exists.mp this

theorem hasUser_append_of_key (t : UserTable) (e : String × UserRecord) (u : String)
    (h : e.1 = u) : hasUser (t ++ [e]) u = true :=
  (hasUser_iff _ _).mpr ⟨e, List.mem_append_right _ (List.mem_cons_self _ _), h⟩

theorem hasUser_mono (t : UserTable) (e : String × UserRecord) (u : String)
    (h : hasUser t u = true) : hasUser (t ++ [e]) u = true := by
  obtain ⟨x, hx, hxe⟩ := (hasUser_iff _ _).mp h
  exact (hasUser_iff _ _).mpr ⟨x, List.mem_append_left _ hx, hxe⟩

theorem checkPermissions_ok (perm : String)
    (h : ∀ c ∈ perm.data, ((readPerms ++ writePerms).data.contains c) = true) :
    checkPermissions perm = .ok () := by
  have hf : perm.data.find? (fun p => !((readPerms ++ writePerms).data.contains p)) = none :=
    List.find?_eq_none.mpr (fun c hc => by rw [h c hc]; simp)
  rw [checkPermissions, hf]

theorem add_user_dup (t : UserTable) (u ph hd pm ml mq : String)
    (h : hasUser t u = true) :
    add_user t u ph hd pm ml mq
      = .error (.authorizerError ("user " ++ u ++ " already exists")) := by
  rw [add_user, if_pos h]

theorem add_user_ok (t : UserTable) (u ph hd pm ml mq : String)
    (h1 : hasUser t u = false)
    (h2 : ∀ c ∈ pm.data, ((readPerms ++ writePerms).data.contains c) = true) :
    add_user t u ph hd pm ml mq
      = .ok (t ++ [(u, ⟨ph, hd, pm, [], ml, mq⟩)]) := by
  rw [add_user, if_neg (by simp [h1]), checkPermissions_ok pm h2]

theorem setupUsers_cons_error (u : UserCfg) (rest : List UserCfg)
    (dm : UserDirMap) (t : UserTable) (h : hasUser t u.username = true) :
    setupUsers (u :: rest) dm t = (dmInsert dm u.username u.directories,
      .error (.authorizerError ("user " ++ u.username ++ " already exists"))) := by
  simp only [setupUsers]
  rw [add_user_dup _ _ _ _ _ _ _ h]

theorem setupUsers_cons_ok (u : UserCfg) (rest : List UserCfg)
    (dm : UserDirMap) (t : UserTable) (h1 : hasUser t u.username = false)
    (h2 : ∀ c ∈ u.permissions.data, ((readPerms ++ writePerms).data.contains c) = true) :
    setupUsers (u :: rest) dm t =
      setupUsers rest (dmInsert dm u.username u.directories)
        (t ++ [(u.username, ⟨u.password_hash,
          (match u.directories.head? with
            | some d => normpath d.2
            | none => normpath "."), u.permissions, [],
          "Login successful.", "Goodbye."⟩)]) := by
  simp only [setupUsers]
  rw [add_user_ok _ _ _ _ _ _ _ h1 h2]

theorem setupUsers_dup :
    ∀ (users : List UserCfg) (dm : UserDirMap) (t : UserTable),
      (∀ u ∈ users, ∀ c ∈ u.permissions.data,
        ((readPerms ++ writePerms).data.contains c) = true) →
      (¬ (users.map (fun u => u.username)).Nodup ∨
        ∃ u ∈ users, hasUser t u.username = true) →
      ∃ n, (setupUsers users dm t).2
        = .error (.authorizerError ("user " ++ n ++ " already exists")) := by
  intro users
  induction users with
  | nil =>
    intro dm t _ hbad
    rcases hbad with h | ⟨u, hu, _⟩
    · exact absurd List.nodup_nil h
    · simp at hu
  | cons u rest ih =>
    intro dm t hperm hbad
    by_cases hdup : hasUser t u.username = true
    · exact ⟨u.username, by rw [setupUsers_cons_error u rest dm t hdup]⟩
    · have hfalse : hasUser t u.username = false := by
        cases h : hasUser t u.username
        · rfl
        · exact absurd h hdup
      rw [setupUsers_cons_ok u rest dm t hfalse (hperm u (List.mem_cons_self _ _))]
      apply ih
      · exact fun v hv => hperm v (List.mem_cons.mpr (Or.inr hv))
      · rcases hbad with h | ⟨v, hv, hvt⟩
        · rw [List.map_cons, List.nodup_cons] at h
          push_neg at h
          by_cases hmem : u.username ∈ rest.map (fun x => x.username)
          · obtain ⟨v, hv, hveq⟩ := List.mem_map.mp hmem
            exact Or.inr ⟨v, hv, hasUser_append_of_key _ _ _ hveq.symm⟩
          · exact Or.inl (h hmem)
        · rcases List.mem_cons.mp hv with hveq | hvrest
          · exact absurd (hveq ▸ hvt) hdup
          · exact Or.inr ⟨v, hvrest, hasUser_mono _ _ _ hvt⟩

/-- C8: `add_user` fails with the duplicate-user error whenever the
username is already registered, its success never depends on the homedir
argument (no existence validation — the model performs no disk access at
all), and `setup_server` on a configuration whose usernames are not
pairwise distinct ends in that duplicate-user error; since the
`ServerState` (carrying the listening endpoint) is built only from the
success branch, no listening socket exists in that case. -/
theorem add_user_duplicate_and_bootstrap :
    (∀ (t : UserTable) (u ph hd pm ml mq : String), hasUser t u = true →
      add_user t u ph hd pm ml mq
        = .error (.authorizerError ("user " ++ u ++ " already exists"))) ∧
    (∀ (t : UserTable) (u ph hd hd2 pm ml mq : String),
      (add_user t u ph hd pm ml mq).isOk = (add_user t u ph hd2 pm ml mq).isOk) ∧
    (∀ (users : List UserCfg) (host : String) (port : Nat),
      (∀ u ∈ users, ∀ c ∈ u.permissions.data,
        ((readPerms ++ writePerms).data.contains c) = true) →
      ¬ (users.map (fun u => u.username)).Nodup →
      ∃ n, (setup_server users host port).2
        = .error (.authorizerError ("user " ++ n ++ " already exists"))) := by
  refine ⟨fun t u ph hd pm ml mq h => add_user_dup t u ph hd pm ml mq h, ?_, ?_⟩
  · intro t u ph hd hd2 pm ml mq
    rw [add_user, add_user]
    by_cases h : hasUser t u = true
    · rw [if_pos h, if_pos h]
    · rw [if_neg h, if_neg h]
      cases hc : checkPermissions pm
      · rfl
      · rfl
  · intro users host port hperm hnodup
    obtain ⟨n, hn⟩ := setupUsers_dup users [] [] hperm (Or.inl hnodup)
    refine ⟨n, ?_⟩
    simp only [setup_server]
    rw [hn]
    rfl

/-- Witness for C8 at the spec's scenario: two users both named `svc`. -/
theorem add_user_duplicate_and_bootstrap_witness :
    add_user [("svc", ⟨"", "/p", "elr", [], "", ""⟩)] "svc" "x" "/h" "elr" "a" "b"
      = .error (.authorizerError "user svc already exists") ∧
    (∃ n, (setup_server [⟨"svc", "", "elr", [("a", "/p1")]⟩,
        ⟨"svc", "", "elr", [("b", "/p2")]⟩] "0.0.0.0" 2121).2
      = .error (.authorizerError ("user " ++ n ++ " already exists"))) :=
  ⟨add_user_duplicate_and_bootstrap.1 [("svc", ⟨"", "/p", "elr", [], "", ""⟩)]
      "svc" "x" "/h" "elr" "a" "b" rfl,
   add_user_duplicate_and_bootstrap.2.2
      [⟨"svc", "", "elr", [("a", "/p1")]⟩, ⟨"svc", "", "elr", [("b", "/p2")]⟩]
      "0.0.0.0" 2121 (by decide) (by decide)⟩

/-- C10: `setup_server` is not atomic on failure.  With users
`u0, u1, u2` where `u2` duplicates `u1`'s name, the run aborts with the
duplicate-user error, yet the global `USER_DIR_MAP` already holds the
entries of every processed user — and the duplicate's directory map has
replaced the first identically-named user's entry. -/
theorem setup_server_partial_registry (u0 u1 u2 : UserCfg) (host : String) (port : Nat)
    (h01 : u0.username ≠ u1.username)
    (h12 : u2.username = u1.username)
    (hp0 : ∀ c ∈ u0.permissions.data, ((readPerms ++ writePerms).data.contains c) = true)
    (hp1 : ∀ c ∈ u1.permissions.data, ((readPerms ++ writePerms).data.contains c) = true) :
    (setup_server [u0, u1, u2] host port).1
        = [(u0.username, u0.directories), (u2.username, u2.directories)] ∧
    (setup_server [u0, u1, u2] host port).2
        = .error (.authorizerError ("user " ++ u2.username ++ " already exists")) := by
  have b01 : (u0.username == u1.username) = false := beq_eq_false_iff_ne.mpr h01
  have b02 : (u0.username == u2.username) = false :=
    beq_eq_false_iff_ne.mpr (fun he => h01 (he.trans h12))
  have b12 : (u1.username == u2.username) = true := beq_iff_eq.mpr h12.symm
  have hrun : setupUsers [u0, u1, u2] [] [] =
      (dmInsert (dmInsert (dmInsert [] u0.username u0.directories)
          u1.username u1.directories) u2.username u2.directories,
        .error (.authorizerError ("user " ++ u2.username ++ " already exists"))) := by
    rw [setupUsers_cons_ok u0 [u1, u2] [] [] rfl hp0,
      setupUsers_cons_ok u1 [u2] _ _
        (by simp [hasUser, List.find?_cons_of_neg, b01]) hp1,
      setupUsers_cons_error u2 [] _ _
        (hasUser_append_of_key _ _ _ h12.symm)]
  have hdm1 : dmInsert [] u0.username u0.directories = [(u0.username, u0.directories)] := by
    simp [dmInsert]
  have hdm2 : dmInsert [(u0.username, u0.directories)] u1.username u1.directories
      = [(u0.username, u0.directories), (u1.username, u1.directories)] := by
    simp [dmInsert, b01]
  have hdm3 : dmInsert [(u0.username, u0.directories), (u1.username, u1.directories)]
      u2.username u2.directories
      = [(u0.username, u0.directories), (u2.username, u2.directories)] := by
    simp [dmInsert, b02, b12]
    exact ⟨fun he => absurd he (by simpa using b02), fun hne => absurd h12.symm hne⟩
  constructor
  · simp only [setup_server]
    rw [hrun, hdm1, hdm2, hdm3]
  · simp only [setup_server]
    rw [hrun]
    rfl

/-- Witness for C10: a concrete three-user configuration. -/
theorem setup_server_partial_registry_witness :
    (setup_server [⟨"ops", "", "elr", [("o", "/o")]⟩, ⟨"svc", "", "elr", [("a", "/p1")]⟩,
        ⟨"svc", "", "elrw", [("b", "/p2")]⟩] "0.0.0.0" 2121).1
      = [("ops", [("o", "/o")]), ("svc", [("b", "/p2")])] ∧
    (setup_server [⟨"ops", "", "elr", [("o", "/o")]⟩, ⟨"svc", "", "elr", [("a", "/p1")]⟩,
        ⟨"svc", "", "elrw", [("b", "/p2")]⟩] "0.0.0.0" 2121).2
      = .error (.authorizerError "user svc already exists") :=
  setup_server_partial_registry ⟨"ops", "", "elr", [("o", "/o")]⟩
    ⟨"svc", "", "elr", [("a", "/p1")]⟩ ⟨"svc", "", "elrw", [("b", "/p2")]⟩
    "0.0.0.0" 2121 (by decide) rfl (by decide) (by decide)

/-! Claim C3: totality and fail-closed behaviour of `ftp2fs`. -/

/-- Data-model invariant on one mount real path: normalized (a `normpath`
fixed point), absolute, and without trailing separator. -/
def GoodBase (b : String) : Prop :=
  normpath b = b ∧ pyStartswith b "/" = true ∧ pyEndswith b "/" = false

theorem mk_data_eta (s : String) : String.mk s.data = s := by cases s; rfl

theorem map_data_map_mk (l : List (List Char)) : (l.map String.mk).map String.data = l := by
  induction l with
  | nil => rfl
  | cons c cs ih => rw [List.map_cons, List.map_cons, mk_data, ih]

theorem startswith_slash_head (b : String) (h : pyStartswith b "/" = true) :
    ∃ t, b.data = '/' :: t := by
  rw [pyStartswith_iff] at h
  obtain ⟨t, ht⟩ := h
  refine ⟨t, ?_⟩
  rw [← ht]
  rfl

theorem goodBase_ne_empty {b : String} (h : GoodBase b) : b ≠ "" := fun he =>
  data_ne_nil_of_slash b h.2.1 (by rw [he])

theorem goodBase_ne_root {b : String} (h : GoodBase b) : b ≠ "/" := fun he => by
  rw [he] at h
  exact absurd h.2.2 (by decide)

theorem beq_false_of_heads {s t : String} {cs ct : Char} {ts tt : List Char}
    (hs : s.data = cs :: ts) (ht : t.data = ct :: tt) (h : cs ≠ ct) : (s == t) = false := by
  rw [beq_eq_false_iff_ne]
  intro he
  rw [he, ht] at hs
  exact h (List.cons.inj hs).1.symm

theorem startswith_false_of_heads {s t : String} {cs ct : Char} {ts tt : List Char}
    (hs : s.data = cs :: ts) (ht : t.data = ct :: tt) (h : ct ≠ cs) :
    pyStartswith s t = false := by
  rw [pyStartswith, hs, ht, isPrefixOf_cons2]
  simp [h]

theorem normcase_data (s : String) : (normcase s).data = s.data.map Char.toLower := rfl

theorem findMount_some (fs : FS) (s0 m : String) (h : findMount fs s0 = some m) :
    ∃ mb ∈ fs.dirMap, mb.1 = m ∧ pyLower mb.1 = pyLower s0 := by
  rw [findMount] at h
  cases hf : fs.dirMap.find? (fun mb => pyLower mb.1 == pyLower s0) with
  | none => rw [hf] at h; cases h
  | some mb =>
    rw [hf] at h
    exact ⟨mb, List.mem_of_find?_eq_some hf, by simpa using h,
      by simpa using List.find?_some hf⟩

theorem lookupDir_of_key (fs : FS) (m : String) (mb : String × String)
    (hmem : mb ∈ fs.dirMap) (hkey : mb.1 = m) :
    ∃ mbl, mbl ∈ fs.dirMap ∧ mbl.1 = m ∧ lookupDir fs m = some mbl.2 := by
  have hsome : (fs.dirMap.find? (fun e => e.1 == m)).isSome = true :=
    List.find?_isSome.mpr ⟨mb, hmem, by simp [hkey]⟩
  obtain ⟨mbl, hmbl⟩ := Option.isSome_iff_exists.mp hsome
  exact ⟨mbl, List.mem_of_find?_eq_some hmbl, by simpa using List.find?_some hmbl,
    by simp [lookupDir, hmbl]⟩

theorem ftp2fs_eval (fs : FS) (v : String) :
    ftp2fs fs v =
      (if ftpnorm fs (toAbsoluteFtppath fs v) = "/" then ftpnorm fs (toAbsoluteFtppath fs v)
        else
          match (resolve fs (toAbsoluteFtppath fs v)).1 with
          | some m =>
            match lookupDir fs m with
            | some realBase =>
              if (resolve fs (toAbsoluteFtppath fs v)).2 ≠ [] then
                normpath (pyJoinList realBase (resolve fs (toAbsoluteFtppath fs v)).2)
              else realBase
            | none => normpath (pyJoin2 "__invalid__" m)
          | none => normpath (pyJoin2 "__invalid__" "")) := by
  rw [ftp2fs]

theorem ftp2fs_found (fs : FS) (v : String) (hcwd : pyStartswith fs.cwd "/" = true)
    (hroot : ftpnorm fs v ≠ "/") (m base : String) (rest : List String)
    (hres : resolve fs (ftpnorm fs v) = (some m, rest))
    (hlook : lookupDir fs m = some base) :
    ftp2fs fs v = (if rest ≠ [] then normpath (pyJoinList base rest) else base) := by
  have hres1 : (resolve fs (ftpnorm fs v)).1 = some m := by rw [hres]
  have hres2 : (resolve fs (ftpnorm fs v)).2 = rest := by rw [hres]
  rw [ftp2fs_eval, toAbsolute_eq fs v hcwd, ftpnorm_idem fs v hcwd, if_neg hroot, hres1]
  show (match lookupDir fs m with
    | some realBase =>
      if (resolve fs (ftpnorm fs v)).2 ≠ [] then
        normpath (pyJoinList realBase (resolve fs (ftpnorm fs v)).2)
      else realBase
    | none => normpath (pyJoin2 "__invalid__" m)) = _
  rw [hlook]
  show (if (resolve fs (ftpnorm fs v)).2 ≠ [] then
      normpath (pyJoinList base (resolve fs (ftpnorm fs v)).2)
    else base) = _
  rw [hres2]

theorem ftp2fs_notfound (fs : FS) (v : String) (hcwd : pyStartswith fs.cwd "/" = true)
    (hroot : ftpnorm fs v ≠ "/") (s0 : String) (rest : List String)
    (hres : resolve fs (ftpnorm fs v) = (some s0, rest))
    (hnolook : lookupDir fs s0 = none) :
    ftp2fs fs v = normpath (pyJoin2 "__invalid__" s0) := by
  have hres1 : (resolve fs (ftpnorm fs v)).1 = some s0 := by rw [hres]
  rw [ftp2fs_eval, toAbsolute_eq fs v hcwd, ftpnorm_idem fs v hcwd, if_neg hroot, hres1]
  show (match lookupDir fs s0 with
    | some realBase =>
      if (resolve fs (ftpnorm fs v)).2 ≠ [] then
        normpath (pyJoinList realBase (resolve fs (ftpnorm fs v)).2)
      else realBase
    | none => normpath (pyJoin2 "__invalid__" s0)) = _
  rw [hnolook]

theorem resolve_ftpnorm (fs : FS) (v : String) (hcwd : pyStartswith fs.cwd "/" = true) :
    resolve fs (ftpnorm fs v) =
      (match (pySplitChar (ftpnorm fs v) '/').filter (fun p => p ≠ "") with
        | [] => (none, [])
        | p0 :: rest =>
          match findMount fs p0 with
          | some m => (some m, rest)
          | none => (some p0, rest)) := by
  rw [resolve_eval, ftpnorm_idem fs v hcwd]

/-- Fixed point of `normpath` on a path of the canonical absolute shape
`base ++ "/" ++ rest` where `base` satisfies the mount invariant and the
rest is a nonempty list of good segments. -/
theorem normpath_fix_under (base : String) (hb : GoodBase base)
    (crest : List (List Char)) (hcr : crest ≠ []) (hseg : ∀ x ∈ crest, Seg x)
    (J : String) (hJ : J.data = base.data ++ '/' :: List.intercalate ['/'] crest) :
    normpath J = J := by
  obtain ⟨sl, bcomps, hsl, hbne, hbseg, hbdata⟩ :=
    normpath_shape_of_fix base hb.1 hb.2.1 hb.2.2
  have hall : ∀ x ∈ bcomps ++ crest, Seg x := by
    intro x hx
    rcases List.mem_append.mp hx with h | h
    · exact hbseg x h
    · exact hseg x h
  have hJd : J.data = List.replicate sl '/' ++ List.intercalate ['/'] (bcomps ++ crest) := by
    rw [hJ, hbdata, intercalate_append2 bcomps crest hbne hcr, List.append_assoc]
  have hJmk : J = String.mk (List.replicate sl '/' ++ List.intercalate ['/'] (bcomps ++ crest)) :=
    string_eq_of_data (by rw [hJd])
  rcases hsl with h1 | h1
  · rw [hJmk, h1]
    rw [show List.replicate 1 '/' ++ List.intercalate ['/'] (bcomps ++ crest)
      = '/' :: List.intercalate ['/'] (bcomps ++ crest) from rfl]
    exact normpath_canon_one _ hall
  · rw [hJmk, h1]
    rw [show List.replicate 2 '/' ++ List.intercalate ['/'] (bcomps ++ crest)
      = '/' :: '/' :: List.intercalate ['/'] (bcomps ++ crest) from rfl]
    exact normpath_canon_two _ hall

/-- C3: for every input virtual path, `ftp2fs` is total and fail-closed:
the virtual root maps to the sentinel `/`; when the first segment of the
normalized path case-insensitively matches a registered mount, the result
equals or strictly extends that mount's real path (dot segments having been
collapsed in the virtual namespace by `ftpnorm`), so `validpath` accepts
it; when it matches no mount, the result is the deterministic relative path
`__invalid__/<segment>`, which `validpath` rejects. -/
theorem ftp2fs_fail_closed (fs : FS) (v : String)
    (hcwd : pyStartswith fs.cwd "/" = true)
    (hmounts : ∀ mb ∈ fs.dirMap, GoodBase mb.2) :
    (ftpnorm fs v = "/" → ftp2fs fs v = "/") ∧
    (∀ s0 rest m,
      (pySplitChar (ftpnorm fs v) '/').filter (fun p => p ≠ "") = s0 :: rest →
      findMount fs s0 = some m →
      ∃ base, lookupDir fs m = some base ∧
        (ftp2fs fs v = base ∨ pyStartswith (ftp2fs fs v) (base ++ "/") = true) ∧
        validpath fs (ftp2fs fs v) = true) ∧
    (∀ s0 rest,
      (pySplitChar (ftpnorm fs v) '/').filter (fun p => p ≠ "") = s0 :: rest →
      findMount fs s0 = none →
      ftp2fs fs v = "__invalid__/" ++ s0 ∧ validpath fs (ftp2fs fs v) = false) := by
  have habs := toAbsolute_eq fs v hcwd
  have hidem := ftpnorm_idem fs v hcwd
  obtain ⟨comps, hseg, hstr⟩ := ftpnorm_str fs v hcwd
  have hkey : ftp2fs fs v =
      (if ftpnorm fs v = "/" then ftpnorm fs v
        else
          match (resolve fs (ftpnorm fs v)).1 with
          | some m =>
            match lookupDir fs m with
            | some realBase =>
              if (resolve fs (ftpnorm fs v)).2 ≠ [] then
                normpath (pyJoinList realBase (resolve fs (ftpnorm fs v)).2)
              else realBase
            | none => normpath (pyJoin2 "__invalid__" m)
          | none => normpath (pyJoin2 "__invalid__" "")) := by
    rw [ftp2fs_eval, habs, hidem]
  refine ⟨?_, ?_, ?_⟩
  · intro hroot
    rw [hkey, if_pos hroot, hroot]
  · intro s0 rest m hparts hfm
    have hmapeq : comps.map String.mk = s0 :: rest := by
      rw [← parts_of_shape comps hseg, ← hstr]
      exact hparts
    cases comps with
    | nil => simp at hmapeq
    | cons c0 crest =>
      rw [List.map_cons] at hmapeq
      have hs0 : String.mk c0 = s0 := (List.cons.inj hmapeq).1
      have hrest : crest.map String.mk = rest := (List.cons.inj hmapeq).2
      have hs0seg : Seg c0 := hseg c0 (List.mem_cons_self _ _)
      have hroot : ftpnorm fs v ≠ "/" := by
        rw [hstr]
        intro he
        have hdd := congrArg String.data he
        rw [mk_data] at hdd
        have : List.intercalate ['/'] (c0 :: crest) = [] := by
          have := List.cons.inj hdd
          simpa using this.2
        obtain ⟨t, ht⟩ := intercalate_cons_pfx c0 crest
        rw [ht] at this
        exact absurd (List.append_eq_nil.mp this).1 hs0seg.1
      have hres : resolve fs (ftpnorm fs v) = (some m, rest) := by
        rw [resolve_ftpnorm fs v hcwd, hparts]
        show (match findMount fs s0 with
          | some m2 => (some m2, rest)
          | none => (some s0, rest)) = (some m, rest)
        rw [hfm]
      obtain ⟨mbf, hmbfmem, hmbfkey, _⟩ := findMount_some fs s0 m hfm
      obtain ⟨mbl, hmblmem, hmblkey, hlook⟩ := lookupDir_of_key fs m mbf hmbfmem hmbfkey
      have hgb : GoodBase mbl.2 := hmounts mbl hmblmem
      refine ⟨mbl.2, hlook, ?_⟩
      obtain ⟨bt, hbt⟩ := startswith_slash_head mbl.2 hgb.2.1
      cases rest with
      | nil =>
        have hresult : ftp2fs fs v = mbl.2 := by
          rw [ftp2fs_found fs v hcwd hroot m mbl.2 [] hres hlook, if_neg (by simp)]
        rw [hresult]
        constructor
        · exact Or.inl rfl
        · rw [validpath, if_neg (goodBase_ne_root hgb)]
          refine List.any_eq_true.mpr ⟨mbl, hmblmem, ?_⟩
          rw [validpathMatch_iff]
          exact Or.inl (by rw [hgb.1])
      | cons r0 rs =>
        have hcrne : crest ≠ [] := by
          intro he
          rw [he] at hrest
          simp at hrest
        have hrseg : ∀ p ∈ (r0 :: rs : List String), Seg p.data := by
          intro p hp
          rw [← hrest] at hp
          obtain ⟨cc, hcc, hcceq⟩ := List.mem_map.mp hp
          rw [← hcceq, mk_data]
          exact hseg cc (List.mem_cons.mpr (Or.inr hcc))
        have hJdata : (pyJoinList mbl.2 (r0 :: rs)).data
            = mbl.2.data ++ '/' :: List.intercalate ['/'] crest := by
          rw [pyJoinList_segs (r0 :: rs) mbl.2 (goodBase_ne_empty hgb) hgb.2.2 hrseg
            (by simp), ← hrest, map_data_map_mk]
        have hfix : normpath (pyJoinList mbl.2 (r0 :: rs)) = pyJoinList mbl.2 (r0 :: rs) :=
          normpath_fix_under mbl.2 hgb crest hcrne
            (fun x hx => hseg x (List.mem_cons.mpr (Or.inr hx))) _ hJdata
        have hresult : ftp2fs fs v = pyJoinList mbl.2 (r0 :: rs) := by
          rw [ftp2fs_found fs v hcwd hroot m mbl.2 (r0 :: rs) hres hlook,
            if_pos (by simp), hfix]
        rw [hresult]
        constructor
        · refine Or.inr ?_
          rw [pyStartswith_iff, String.data_append, hJdata]
          rw [show mbl.2.data ++ '/' :: List.intercalate ['/'] crest
            = (mbl.2.data ++ ['/']) ++ List.intercalate ['/'] crest by simp]
          exact List.prefix_append _ _
        · have hne : pyJoinList mbl.2 (r0 :: rs) ≠ "/" := by
            intro he
            have := congrArg String.data he
            rw [hJdata] at this
            have hlen := congrArg List.length this
            rw [List.length_append] at hlen
            rw [hbt] at hlen
            simp at hlen
            omega
          rw [validpath, if_neg hne]
          refine List.any_eq_true.mpr ⟨mbl, hmblmem, ?_⟩
          rw [validpathMatch_iff, hgb.1]
          refine Or.inr ?_
          rw [hfix, pyStartswith_iff, String.data_append, normcase_data, normcase_data,
            hJdata, List.map_append, List.map_cons, toLower_slash]
          rw [show mbl.2.data.map Char.toLower ++ '/' :: (List.intercalate ['/'] crest).map
              Char.toLower
            = (mbl.2.data.map Char.toLower ++ ['/']) ++ (List.intercalate ['/'] crest).map
              Char.toLower by simp]
          exact List.prefix_append _ _
  · intro s0 rest hparts hfm
    have hmapeq : comps.map String.mk = s0 :: rest := by
      rw [← parts_of_shape comps hseg, ← hstr]
      exact hparts
    cases comps with
    | nil => simp at hmapeq
    | cons c0 crest =>
      rw [List.map_cons] at hmapeq
      have hs0 : String.mk c0 = s0 := (List.cons.inj hmapeq).1
      have hs0seg : Seg c0 := hseg c0 (List.mem_cons_self _ _)
      have hs0data : s0.data = c0 := by rw [← hs0, mk_data]
      have hroot : ftpnorm fs v ≠ "/" := by
        rw [hstr]
        intro he
        have hdd := congrArg String.data he
        rw [mk_data] at hdd
        have : List.intercalate ['/'] (c0 :: crest) = [] := by
          have := List.cons.inj hdd
          simpa using this.2
        obtain ⟨t, ht⟩ := intercalate_cons_pfx c0 crest
        rw [ht] at this
        exact absurd (List.append_eq_nil.mp this).1 hs0seg.1
      have hres : resolve fs (ftpnorm fs v) = (some s0, rest) := by
        rw [resolve_ftpnorm fs v hcwd, hparts]
        show (match findMount fs s0 with
          | some m2 => (some m2, rest)
          | none => (some s0, rest)) = (some s0, rest)
        rw [hfm]
      have hfindnone : fs.dirMap.find? (fun e => pyLower e.1 == pyLower s0) = none := by
        rw [findMount] at hfm
        cases hf : fs.dirMap.find? (fun e => pyLower e.1 == pyLower s0) with
        | none => rfl
        | some x => rw [hf] at hfm; cases hfm
      have hnolook : lookupDir fs s0 = none := by
        rw [lookupDir, List.find?_eq_none.mpr ?_]
        · rfl
        · intro mb hmb hbe
          have hbeq : mb.1 = s0 := by simpa using hbe
          have hno := List.find?_eq_none.mp hfindnone mb hmb
          exact hno (by rw [hbeq]; simp)
      have hjoin : pyJoin2 "__invalid__" s0 = "__invalid__" ++ "/" ++ s0 :=
        pyJoin2_seg "__invalid__" s0 (by decide) (by decide) (by rw [hs0data]; exact hs0seg)
      have hIseg : Seg ("__invalid__".data) := by decide
      have hJdata : ("__invalid__" ++ "/" ++ s0).data
          = List.intercalate ['/'] ["__invalid__".data, c0] := by
        rw [String.data_append, String.data_append, intercalate_cons2, intercalate_single,
          hs0data, List.append_assoc]
        rfl
      have hfix : normpath ("__invalid__" ++ "/" ++ s0) = "__invalid__" ++ "/" ++ s0 := by
        have := normpath_canon_zero ["__invalid__".data, c0]
          (by
            intro x hx
            rcases List.mem_cons.mp hx with h | h
            · rw [h]; exact hIseg
            · have : x = c0 := by simpa using h
              rw [this]; exact hs0seg)
          (by simp)
        rw [← hJdata] at this
        rw [mk_data_eta] at this
        exact this
      have hstreq : ("__invalid__" ++ "/" ++ s0) = "__invalid__/" ++ s0 := by
        apply string_eq_of_data
        rw [String.data_append, String.data_append, String.data_append]
        simp
      have hresult : ftp2fs fs v = "__invalid__/" ++ s0 := by
        rw [ftp2fs_notfound fs v hcwd hroot s0 rest hres hnolook, hjoin, hfix, hstreq]
      refine ⟨hresult, ?_⟩
      rw [hresult]
      have hRdata : ("__invalid__/" ++ s0).data = '_' :: ("_invalid__/".data ++ c0) := by
        rw [String.data_append, hs0data]
        rfl
      have hRroot : ("__invalid__/" ++ s0) ≠ "/" := by
        intro he
        have := congrArg String.data he
        rw [hRdata] at this
        simp [String.data] at this
      rw [validpath, if_neg hRroot]
      refine List.any_eq_false.mpr ?_
      intro mb hmb
      have hgb : GoodBase mb.2 := hmounts mb hmb
      obtain ⟨bt, hbt⟩ := startswith_slash_head mb.2 hgb.2.1
      have hnormR : normpath ("__invalid__/" ++ s0) = "__invalid__/" ++ s0 := by
        rw [← hstreq]
        exact hfix
      intro hmatch
      rw [validpathMatch_iff, hnormR, hgb.1] at hmatch
      have hRcase : (normcase ("__invalid__/" ++ s0)).data
          = '_' :: ("_invalid__/".data ++ c0).map Char.toLower := by
        rw [normcase_data, hRdata, List.map_cons]
        rfl
      have hBcase : (normcase mb.2).data = '/' :: bt.map Char.toLower := by
        rw [normcase_data, hbt, List.map_cons, toLower_slash]
      rcases hmatch with h | h
      · have := congrArg String.data h
        rw [hRcase, hBcase] at this
        exact absurd (List.cons.inj this).1 (by decide)
      · have hPdata : (normcase mb.2 ++ "/").data = '/' :: (bt.map Char.toLower ++ ['/']) := by
          rw [String.data_append, hBcase]
          rfl
        rw [startswith_false_of_heads hRcase hPdata (by decide)] at h
        cases h

instance (b : String) : Decidable (GoodBase b) := by
  unfold GoodBase
  infer_instance

/-- Witness for C3: the spec scenario with mounts `projects -> /d1` and
`backup -> /d2`. -/
theorem ftp2fs_fail_closed_witness :
    ftp2fs ⟨[("projects", "/d1"), ("backup", "/d2")], "/"⟩ "/" = "/" ∧
    (∃ base, lookupDir ⟨[("projects", "/d1"), ("backup", "/d2")], "/"⟩ "projects" = some base ∧
      (ftp2fs ⟨[("projects", "/d1"), ("backup", "/d2")], "/"⟩ "/projects/x/y.txt" = base ∨
        pyStartswith (ftp2fs ⟨[("projects", "/d1"), ("backup", "/d2")], "/"⟩
          "/projects/x/y.txt") (base ++ "/") = true) ∧
      validpath ⟨[("projects", "/d1"), ("backup", "/d2")], "/"⟩
        (ftp2fs ⟨[("projects", "/d1"), ("backup", "/d2")], "/"⟩ "/projects/x/y.txt") = true) ∧
    ftp2fs ⟨[("projects", "/d1"), ("backup", "/d2")], "/"⟩ "/nope" = "__invalid__/nope" ∧
    validpath ⟨[("projects", "/d1"), ("backup", "/d2")], "/"⟩
      (ftp2fs ⟨[("projects", "/d1"), ("backup", "/d2")], "/"⟩ "/nope") = false := by
  refine ⟨(ftp2fs_fail_closed ⟨[("projects", "/d1"), ("backup", "/d2")], "/"⟩ "/"
      (by decide) (by decide)).1 (by decide), ?_, ?_⟩
  · exact (ftp2fs_fail_closed ⟨[("projects", "/d1"), ("backup", "/d2")], "/"⟩
      "/projects/x/y.txt" (by decide) (by decide)).2.1
      "projects" ["x", "y.txt"] "projects" (by decide) (by decide)
  · exact (ftp2fs_fail_closed ⟨[("projects", "/d1"), ("backup", "/d2")], "/"⟩ "/nope"
      (by decide) (by decide)).2.2 "nope" [] (by decide) (by decide)

/-! Claim C4: the `fs2ftp` / `ftp2fs` round trip. -/

/-- Strict or reflexive descent of a normalized real path below a base:
the path is the base itself, or the base followed by a separator and a
nonempty run of good segments. -/
def DescOf (base R : String) : Prop :=
  R = base ∨ ∃ comps, comps ≠ [] ∧ (∀ x ∈ comps, Seg x) ∧
    R.data = base.data ++ '/' :: List.intercalate ['/'] comps

theorem find_key_self (l : List (String × String)) (m rb : String)
    (hmem : (m, rb) ∈ l) (hpw : l.Pairwise (fun a b => pyLower a.1 ≠ pyLower b.1)) :
    l.find? (fun mb => pyLower mb.1 == pyLower m) = some (m, rb) ∧
    l.find? (fun mb => mb.1 == m) = some (m, rb) := by
  induction l with
  | nil => cases hmem
  | cons a l ih =>
    rcases List.mem_cons.mp hmem with he | hmem2
    · rw [← he]
      constructor
      · rw [List.find?_cons_of_pos _ (by simp)]
      · rw [List.find?_cons_of_pos _ (by simp)]
    · have hpw2 := List.pairwise_cons.mp hpw
      have hne : pyLower a.1 ≠ pyLower m := by
        have := hpw2.1 (m, rb) hmem2
        simpa using this
      have hne2 : a.1 ≠ m := fun he2 => hne (by rw [he2])
      have := ih hmem2 hpw2.2
      constructor
      · rw [List.find?_cons_of_neg _ (by simp [hne]), this.1]
      · rw [List.find?_cons_of_neg _ (by simp [hne2]), this.2]

theorem findMount_self (fs : FS) (m rb : String) (hmem : (m, rb) ∈ fs.dirMap)
    (hpw : fs.dirMap.Pairwise (fun a b => pyLower a.1 ≠ pyLower b.1)) :
    findMount fs m = some m ∧ lookupDir fs m = some rb := by
  have h := find_key_self fs.dirMap m rb hmem hpw
  constructor
  · rw [findMount, h.1]
    rfl
  · rw [lookupDir, h.2]
    rfl

theorem string_len_ne {s t : String} (h : s.data.length ≠ t.data.length) : s ≠ t :=
  fun he => h (by rw [he])

theorem fs2ftp_eval (fs : FS) (R : String) :
    fs2ftp fs R =
      (match fs.dirMap.find? (fs2ftpMatch (normpath R)) with
        | some mb =>
          if normcase (normpath R) == normcase (normpath mb.2) then "/" ++ mb.1
          else "/" ++ mb.1 ++ "/" ++ pyLstrip (pyDrop (normpath R) (pyLen (normpath mb.2))) '/'
        | none => "/") := by
  rw [fs2ftp]

theorem fs2ftp_found (fs : FS) (R : String) (mb : String × String)
    (hf : fs.dirMap.find? (fs2ftpMatch (normpath R)) = some mb) :
    fs2ftp fs R =
      (if normcase (normpath R) == normcase (normpath mb.2) then "/" ++ mb.1
        else "/" ++ mb.1 ++ "/" ++ pyLstrip (pyDrop (normpath R) (pyLen (normpath mb.2))) '/')
    := by
  rw [fs2ftp_eval, hf]

/-- Counterexample to C4 as frozen: with the legitimate mount table
`m1 -> /DATA`, `m2 -> /data` (names unique up to case, real paths
normalized, absolute, no trailing separator), the normalized real path
`/data/x` is a strict descendant of mount `m2`'s real root, yet
`ftp2fs (fs2ftp R)` returns `/DATA/x`, not `R`: the first case-insensitive
match in `fs2ftp` is `m1`, whose real path is only a case-variant prefix of
`R`. -/
theorem fs2ftp_roundtrip_counterexample :
    ("m2", "/data") ∈ (⟨[("m1", "/DATA"), ("m2", "/data")], "/"⟩ : FS).dirMap ∧
    DescOf "/data" "/data/x" ∧
    (∀ mb ∈ (⟨[("m1", "/DATA"), ("m2", "/data")], "/"⟩ : FS).dirMap,
      GoodBase mb.2 ∧ Seg mb.1.data) ∧
    (⟨[("m1", "/DATA"), ("m2", "/data")], "/"⟩ : FS).dirMap.Pairwise
      (fun a b => pyLower a.1 ≠ pyLower b.1) ∧
    fs2ftp ⟨[("m1", "/DATA"), ("m2", "/data")], "/"⟩ "/data/x" = "/m1/x" ∧
    ftp2fs ⟨[("m1", "/DATA"), ("m2", "/data")], "/"⟩
      (fs2ftp ⟨[("m1", "/DATA"), ("m2", "/data")], "/"⟩ "/data/x") = "/DATA/x" ∧
    "/DATA/x" ≠ "/data/x" := by
  refine ⟨by decide, Or.inr ⟨[['x']], by decide, by decide, by decide⟩,
    by decide, by decide, by decide, by decide, by decide⟩

/-- C4 amended: for every registered mount and every normalized real path R
that is that mount's real root or a literal strict descendant of it, the
round trip `ftp2fs (fs2ftp R) = R` holds, provided the first mount in
registry order whose normcased real path matches R has a real path that is
literally equal to, or a literal separator-bounded ancestor of, R (in
particular, whenever no two mount real paths alias each other under case
folding).  Mount names satisfy the data-model invariant (single good
segments, unique up to case folding) and mount real paths the RealPath
invariant. -/
theorem fs2ftp_roundtrip_amended (fs : FS) (R : String)
    (hcwd : pyStartswith fs.cwd "/" = true)
    (hnames : ∀ mb ∈ fs.dirMap, Seg mb.1.data)
    (hpw : fs.dirMap.Pairwise (fun a b => pyLower a.1 ≠ pyLower b.1))
    (hmounts : ∀ mb ∈ fs.dirMap, GoodBase mb.2)
    (hR : ∃ mb ∈ fs.dirMap, DescOf mb.2 R)
    (hfirst : ∀ mb, fs.dirMap.find? (fs2ftpMatch (normpath R)) = some mb → DescOf mb.2 R) :
    ftp2fs fs (fs2ftp fs R) = R := by
  obtain ⟨mbj, hmemj, hdescj⟩ := hR
  have hgbj : GoodBase mbj.2 := hmounts mbj hmemj
  -- R is a normpath fixed point
  have hRfix : normpath R = R := by
    rcases hdescj with he | ⟨comps, hcne, hcseg, hdata⟩
    · rw [he]; exact hgbj.1
    · have := normpath_fix_under mbj.2 hgbj comps hcne hcseg R hdata
      exact this
  -- the find? in fs2ftp succeeds
  have hmatchj : fs2ftpMatch (normpath R) mbj = true := by
    simp only [fs2ftpMatch]
    rw [hRfix, hgbj.1]
    rcases hdescj with he | ⟨comps, hcne, hcseg, hdata⟩
    · rw [he]
      simp
    · have hB : pyStartswith (normcase R) (normcase mbj.2 ++ "/") = true := by
        rw [pyStartswith_iff, String.data_append, normcase_data, normcase_data, hdata,
          List.map_append, List.map_cons, toLower_slash]
        rw [show mbj.2.data.map Char.toLower ++ '/' :: (List.intercalate ['/'] comps).map
            Char.toLower
          = (mbj.2.data.map Char.toLower ++ ['/']) ++ (List.intercalate ['/'] comps).map
            Char.toLower by simp]
        exact List.prefix_append _ _
      rw [hB, Bool.or_true]
  have hfsome : (fs.dirMap.find? (fs2ftpMatch (normpath R))).isSome = true :=
    List.find?_isSome.mpr ⟨mbj, hmemj, hmatchj⟩
  obtain ⟨mbf, hmbf⟩ := Option.isSome_iff_exists.mp hfsome
  have hmemf : mbf ∈ fs.dirMap := List.mem_of_find?_eq_some hmbf
  have hgbf : GoodBase mbf.2 := hmounts mbf hmemf
  have hnamef : Seg mbf.1.data := hnames mbf hmemf
  have hdescf : DescOf mbf.2 R := hfirst mbf hmbf
  have hmemf2 : (mbf.1, mbf.2) ∈ fs.dirMap := by rw [Prod.mk.eta]; exact hmemf
  obtain ⟨hfm, hld⟩ := findMount_self fs mbf.1 mbf.2 hmemf2 hpw
  have hveval := fs2ftp_found fs R mbf hmbf
  rcases hdescf with he | ⟨comps, hcne, hcseg, hdata⟩
  · -- R is exactly the found mount's real root
    have hbr : (normcase (normpath R) == normcase (normpath mbf.2)) = true := by
      rw [hRfix, he, hgbf.1]
      simp
    rw [hveval, if_pos hbr]
    -- now compute ftp2fs fs ("/" ++ mbf.1)
    have hvdata : ("/" ++ mbf.1).data = '/' :: List.intercalate ['/'] [mbf.1.data] := by
      rw [String.data_append, intercalate_single]
      rfl
    have hvmk : ("/" ++ mbf.1) = String.mk ('/' :: List.intercalate ['/'] [mbf.1.data]) :=
      string_eq_of_data (by rw [hvdata])
    have hsegs : ∀ x ∈ [mbf.1.data], Seg x := by
      intro x hx
      have : x = mbf.1.data := by simpa using hx
      rw [this]
      exact hnamef
    have hnormv : ftpnorm fs ("/" ++ mbf.1) = "/" ++ mbf.1 := by
      rw [hvmk]
      rw [ftpnorm_canon fs [mbf.1.data] hsegs]
    have hroot : ftpnorm fs ("/" ++ mbf.1) ≠ "/" := by
      rw [hnormv]
      refine string_len_ne ?_
      have h1 : ("/" : String).data.length = 1 := rfl
      rw [String.data_append, List.length_append, h1]
      have h2 : mbf.1.data.length ≠ 0 := fun hz => hnamef.1 (List.length_eq_zero.mp hz)
      omega
    have hparts2 : (pySplitChar (ftpnorm fs ("/" ++ mbf.1)) '/').filter (fun p => p ≠ "")
        = [mbf.1] := by
      rw [hnormv, hvmk, parts_of_shape [mbf.1.data] hsegs]
      rw [List.map_cons, List.map_nil, mk_data_eta]
    have hres : resolve fs (ftpnorm fs ("/" ++ mbf.1)) = (some mbf.1, []) := by
      rw [resolve_ftpnorm fs ("/" ++ mbf.1) hcwd, hparts2]
      show (match findMount fs mbf.1 with
        | some m2 => (some m2, ([] : List String))
        | none => (some mbf.1, [])) = (some mbf.1, [])
      rw [hfm]
    rw [ftp2fs_found fs ("/" ++ mbf.1) hcwd hroot mbf.1 mbf.2 [] hres hld,
      if_neg (by simp)]
    exact he.symm
  · -- R lies strictly under the found mount's real root
    have hbr : (normcase (normpath R) == normcase (normpath mbf.2)) = false := by
      rw [hRfix, hgbf.1]
      refine beq_eq_false_iff_ne.mpr (string_len_ne ?_)
      rw [normcase_data, normcase_data, List.length_map, List.length_map, hdata]
      simp
    have hjh := intercalate_head comps hcseg
    rcases hjh with hjn | ⟨ch, jt, hje, hch⟩
    · exact absurd hjn hcne
    have hrel : pyLstrip (pyDrop (normpath R) (pyLen (normpath mbf.2))) '/'
        = String.mk (List.intercalate ['/'] comps) := by
      rw [hRfix, hgbf.1, pyDrop, pyLen, hdata, List.drop_left]
      rw [pyLstrip, mk_data]
      rw [List.dropWhile_cons]
      rw [if_pos (by simp)]
      rw [hje, List.dropWhile_cons, if_neg (by simp [hch])]
    rw [hveval, if_neg (by rw [hbr]; simp), hrel]
    -- the produced virtual path
    have hvdata : ("/" ++ mbf.1 ++ "/" ++ String.mk (List.intercalate ['/'] comps)).data
        = '/' :: List.intercalate ['/'] (mbf.1.data :: comps) := by
      rw [String.data_append, String.data_append, String.data_append, mk_data]
      rw [show List.intercalate ['/'] (mbf.1.data :: comps)
        = mbf.1.data ++ '/' :: List.intercalate ['/'] comps by
          cases comps with
          | nil => exact absurd rfl hcne
          | cons c1 cs => exact intercalate_cons2 _ _ _]
      simp
    have hsegs : ∀ x ∈ mbf.1.data :: comps, Seg x := by
      intro x hx
      rcases List.mem_cons.mp hx with h | h
      · rw [h]; exact hnamef
      · exact hcseg x h
    have hvmk : ("/" ++ mbf.1 ++ "/" ++ String.mk (List.intercalate ['/'] comps))
        = String.mk ('/' :: List.intercalate ['/'] (mbf.1.data :: comps)) :=
      string_eq_of_data (by rw [hvdata])
    have hnormv : ftpnorm fs ("/" ++ mbf.1 ++ "/" ++ String.mk (List.intercalate ['/'] comps))
        = "/" ++ mbf.1 ++ "/" ++ String.mk (List.intercalate ['/'] comps) := by
      rw [hvmk, ftpnorm_canon fs (mbf.1.data :: comps) hsegs]
    have hroot : ftpnorm fs ("/" ++ mbf.1 ++ "/" ++ String.mk (List.intercalate ['/'] comps))
        ≠ "/" := by
      rw [hnormv]
      refine string_len_ne ?_
      rw [hvdata]
      have h1 : ("/" : String).data.length = 1 := rfl
      rw [List.length_cons, h1]
      have h2 : (List.intercalate ['/'] (mbf.1.data :: comps)).length ≠ 0 := by
        intro hz
        obtain ⟨t2, ht2⟩ := intercalate_cons_pfx mbf.1.data comps
        rw [ht2] at hz
        exact hnamef.1 (List.append_eq_nil.mp (List.length_eq_zero.mp hz)).1
      omega
    have hparts2 : (pySplitChar (ftpnorm fs
          ("/" ++ mbf.1 ++ "/" ++ String.mk (List.intercalate ['/'] comps))) '/').filter
        (fun p => p ≠ "") = mbf.1 :: comps.map String.mk := by
      rw [hnormv, hvmk, parts_of_shape (mbf.1.data :: comps) hsegs]
      rw [List.map_cons, mk_data_eta]
    have hres : resolve fs (ftpnorm fs
          ("/" ++ mbf.1 ++ "/" ++ String.mk (List.intercalate ['/'] comps)))
        = (some mbf.1, comps.map String.mk) := by
      rw [resolve_ftpnorm fs _ hcwd, hparts2]
      show (match findMount fs mbf.1 with
        | some m2 => (some m2, comps.map String.mk)
        | none => (some mbf.1, comps.map String.mk)) = (some mbf.1, comps.map String.mk)
      rw [hfm]
    have hmapne : comps.map String.mk ≠ [] := by
      cases comps with
      | nil => exact absurd rfl hcne
      | cons c1 cs => simp
    rw [ftp2fs_found fs _ hcwd hroot mbf.1 mbf.2 (comps.map String.mk) hres hld,
      if_pos hmapne]
    -- the joined path is R itself
    have hrseg : ∀ p ∈ comps.map String.mk, Seg p.data := by
      intro p hp
      obtain ⟨cc, hcc, hcceq⟩ := List.mem_map.mp hp
      rw [← hcceq, mk_data]
      exact hcseg cc hcc
    have hJdata : (pyJoinList mbf.2 (comps.map String.mk)).data = R.data := by
      rw [pyJoinList_segs (comps.map String.mk) mbf.2 (goodBase_ne_empty hgbf) hgbf.2.2
        hrseg hmapne, map_data_map_mk, hdata]
    have hJR : pyJoinList mbf.2 (comps.map String.mk) = R := string_eq_of_data hJdata
    rw [hJR, hRfix]

/-- Witness for the amended C4 at a concrete single-mount table. -/
theorem fs2ftp_roundtrip_amended_witness :
    ftp2fs ⟨[("projects", "/d1")], "/"⟩
      (fs2ftp ⟨[("projects", "/d1")], "/"⟩ "/d1/x/y.txt") = "/d1/x/y.txt" :=
  fs2ftp_roundtrip_amended ⟨[("projects", "/d1")], "/"⟩ "/d1/x/y.txt"
    (by decide) (by decide) (by decide) (by decide)
    ⟨("projects", "/d1"), by decide,
      Or.inr ⟨[['x'], ['y', '.', 't', 'x', 't']], by decide, by decide, by decide⟩⟩
    (fun mb hmb => by
      have hv : (⟨[("projects", "/d1")], "/"⟩ : FS).dirMap.find?
          (fs2ftpMatch (normpath "/d1/x/y.txt")) = some ("projects", "/d1") := by decide
      rw [hv] at hmb
      cases hmb
      exact Or.inr ⟨[['x'], ['y', '.', 't', 'x', 't']], by decide, by decide, by decide⟩)

end Fkftp
